import Mathlib

/-!
# csi-s3: the s3fs mounter (`pkg/mounter/s3fs.go`)

A shallow embedding of the s3fs backend of the volume mounter and of the Go
standard-library functions it calls (`os.Expand`, `strings.Fields`,
`path.Join`, `os.OpenFile`, `(*File).WriteString`, `os.Remove`).

Conventions.

* A Go `string` is modelled as a `List Char`: the embedding covers the Go
  strings that are valid UTF-8.  `os.Expand` and `path.Clean` scan bytes, but
  they compare with and cut at ASCII bytes only, and in valid UTF-8 an ASCII
  byte is always a whole character, so scanning characters gives the same
  result.  File contents are byte lists (`List Nat`, every entry below 256);
  `goBytes` is the UTF-8 encoding that turns a string into the bytes written.
* A Go `error` result is an `Option GoError`; `none` is `nil`.
* Stateful code is a function on `State`: the operating-system state
  together with the trace of the calls that left the mounter.
* The file system is a tree of directories and regular files without symbolic
  links.  `open`, `unlink` and `rmdir` resolve a path as Linux does: from the
  root or the working directory, name by name, through `.` and `..`, with the
  errors `ENOENT`, `ENOTDIR`, `EISDIR`, `EINVAL`, `EBUSY`, `ENOTEMPTY` and
  `ENAMETOOLONG`.  What the tree does not show (permissions, a read-only or
  full file system, a busy mount point) is a table of faults in the state.
* Code of the repository that is not in `s3fs.go` (`getCacheDir`,
  `fuseMount`, `FuseUnmount`, `common.CleanupMountPoint`) and the
  `k8s.io/utils/mount` mounter are parameters, collected in `Collaborators`.
-/

namespace S3fs

/-- A Go string, as the list of its characters. -/
abbrev GoString := List Char

/-! ## `os.Expand` -/

/-- Go `os.isShellSpecialVar`: the character names a special shell variable. -/
def isShellSpecialVar (c : Char) : Bool :=
  c = '*' || c = '#' || c = '$' || c = '@' || c = '!' || c = '?' || c = '-' ||
  c = '0' || c = '1' || c = '2' || c = '3' || c = '4' || c = '5' || c = '6' ||
  c = '7' || c = '8' || c = '9'

/-- Go `os.isAlphaNum`: an ASCII letter, digit or underscore. -/
def isAlphaNum (c : Char) : Bool :=
  c = '_' || ('0' ≤ c && c ≤ '9') || ('a' ≤ c && c ≤ 'z') || ('A' ≤ c && c ≤ 'Z')

/-- The loop `for i := 1; i < len(s); i++ { if s[i] == '}' ... }` of
`getShellName`: the index of the first closing brace, scanning the part of
`s` that starts at index `i`. -/
def scanToBrace : List Char → Nat → Option Nat
  | [], _ => none
  | c :: cs, i => if c = '}' then some i else scanToBrace cs (i + 1)

/-- The loop `for i = 0; i < len(s) && isAlphaNum(s[i]); i++ {}` of
`getShellName`: the index of the first character that is not alphanumeric. -/
def scanAlphaNum : List Char → Nat → Nat
  | [], i => i
  | c :: cs, i => if isAlphaNum c then scanAlphaNum cs (i + 1) else i

/-- Go `os.getShellName` on the non-empty string `s0 :: tl` (`os.Expand` calls
it on `s[j+1:]` only when `j+1 < len(s)`): the name that begins the string and
the number of bytes consumed. -/
def getShellName (s0 : Char) (tl : List Char) : GoString × Nat :=
  if s0 = '{' then
    if 2 < (s0 :: tl).length && isShellSpecialVar (tl.getD 0 s0) && tl.getD 1 s0 = '}' then
      (tl.take 1, 3)
    else
      match scanToBrace tl 1 with
      | some i => if i = 1 then ([], 2) else (tl.take (i - 1), i + 1)
      | none => ([], 1)
  else if isShellSpecialVar s0 then ([s0], 1)
  else
    let i := scanAlphaNum (s0 :: tl) 0
    ((s0 :: tl).take i, i)

/-- The loop of `os.Expand`.  `rest` is `s[j:]`, `lit` is `s[i:j]` (the text
read since the last placeholder) and `buf` is the output buffer, `none` while
it is still `nil`.  The result is what `Expand` returns when the loop is over:
`s` itself when `buf` is `nil` (then `i = 0` and `lit = s`), else
`string(buf) + s[i:]`.  Every iteration consumes at least one character of
`rest`, so `rest.length` iterations are enough. -/
def expandLoop (mapping : GoString → GoString) :
    Nat → Option GoString → GoString → GoString → GoString
  | 0, buf, lit, _ => buf.getD [] ++ lit
  | _ + 1, buf, lit, [] => buf.getD [] ++ lit
  | fuel + 1, buf, lit, c :: after =>
    match after with
    | s0 :: tl =>
      if c = '$' then
        let buf1 := buf.getD [] ++ lit
        let nw := getShellName s0 tl
        let buf2 :=
          if nw.1 = [] ∧ nw.2 > 0 then buf1
          else if nw.1 = [] then buf1 ++ [c]
          else buf1 ++ mapping nw.1
        expandLoop mapping fuel (some buf2) [] (after.drop nw.2)
      else expandLoop mapping fuel buf (lit ++ [c]) after
    | [] => expandLoop mapping fuel buf (lit ++ [c]) after

/-- Go `os.Expand` (Go 1.11 and later): replaces `${var}` or `$var` in `s` by
`mapping(var)`; bad syntax such as `${}` or an unclosed `${` is eaten, and a
dollar sign that no name follows is left in place. -/
def Expand (s : GoString) (mapping : GoString → GoString) : GoString :=
  expandLoop mapping s.length none [] s

/-! ## `strings.Fields` -/

/-- Go `unicode.IsSpace`: the Latin-1 spaces and the code points of the
Unicode `White_Space` property. -/
def IsSpace (c : Char) : Bool :=
  let r := c.toNat
  r = 0x09 || r = 0x0A || r = 0x0B || r = 0x0C || r = 0x0D || r = 0x20 ||
  r = 0x85 || r = 0xA0 || r = 0x1680 || (0x2000 ≤ r && r ≤ 0x200A) ||
  r = 0x2028 || r = 0x2029 || r = 0x202F || r = 0x205F || r = 0x3000

/-- The loop of Go `strings.FieldsFunc`.  `start` is the field being read
(`none` when Go's `start` is negative), `spans` the fields found so far. -/
def fieldsLoop (f : Char → Bool) :
    List Char → Option GoString → List GoString → List GoString
  | [], none, spans => spans
  | [], some cur, spans => spans ++ [cur]
  | c :: cs, start, spans =>
    if f c then
      match start with
      | some cur => fieldsLoop f cs none (spans ++ [cur])
      | none => fieldsLoop f cs none spans
    else
      match start with
      | some cur => fieldsLoop f cs (some (cur ++ [c])) spans
      | none => fieldsLoop f cs (some [c]) spans

/-- Go `strings.FieldsFunc`. -/
def FieldsFunc (s : GoString) (f : Char → Bool) : List GoString :=
  fieldsLoop f s none []

/-- Go `strings.Fields`: splits around runs of white space.  (For a string of
ASCII bytes Go takes a fast path with the table `asciiSpace`, which holds the
six ASCII spaces of `IsSpace`; it returns the same fields.) -/
def Fields (s : GoString) : List GoString :=
  FieldsFunc s IsSpace

/-! ## The mounter -/

/-- The fields of `s3.FSMeta` that the s3fs mounter reads. -/
structure FSMeta where
  BucketName : GoString
  Prefix : GoString
  FSPath : GoString
  ExtraOptions : GoString

/-- The fields of `s3.Config` that the s3fs mounter reads. -/
structure Config where
  Endpoint : GoString
  Region : GoString
  AccessKeyID : GoString
  SecretAccessKey : GoString

/-- Go `s3fsMounter`. -/
structure s3fsMounter where
  meta : FSMeta
  url : GoString
  region : GoString
  pwFileContent : GoString

/-- Go `s3fsCmd`. -/
def s3fsCmd : GoString := "s3fs".toList

/-- Go `newS3fsMounter` (its error result is always `nil`). -/
def newS3fsMounter (m : FSMeta) (cfg : Config) : s3fsMounter :=
  { meta := m
    url := cfg.Endpoint
    region := cfg.Region
    pwFileContent := cfg.AccessKeyID ++ ":".toList ++ cfg.SecretAccessKey }

/-- Go `(*s3fsMounter).extraOptionsMapping`.  `getCacheDir` is the
repository's function of that name, which is not in `s3fs.go`.  The warning
that `glog.Warningf` logs for an unknown name has no effect on the result and
is not modelled. -/
def extraOptionsMapping (getCacheDir : GoString → GoString) (s3fs : s3fsMounter)
    (name : GoString) : GoString :=
  if name = "cacheDir".toList then getCacheDir s3fs.meta.BucketName
  else name

/-- Go `(*s3fsMounter).parseExtraOptions`. -/
def parseExtraOptions (getCacheDir : GoString → GoString) (s3fs : s3fsMounter) :
    List GoString :=
  let extraOptions := s3fs.meta.ExtraOptions
  let extraOptions := Expand extraOptions (extraOptionsMapping getCacheDir s3fs)
  Fields extraOptions

/-! ## `path.Join` -/

/-- The loop `out.w--; for out.w > dotdot && out.index(out.w) != '/' { out.w-- }`
of `path.Clean`, entered with `out.w` already decremented: the value of `out.w`
when it stops.  `buf` is the content of the buffer before the `..` element. -/
def backtrack (buf : List Char) (dotdot : Nat) : Nat → Nat
  | 0 => 0
  | w + 1 => if w + 1 > dotdot && buf.getD (w + 1) '/' != '/' then backtrack buf dotdot w else w + 1

/-- The loop `for r < n` of Go `path.Clean`.  `rest` is `path[r:]`, `out` is
the content of the `lazybuf` (so `out.w` is `out.length`), `dotdot` is the
index in `out` where `..` must stop.  Every iteration consumes at least one
character of `rest`, so `rest.length` iterations are enough. -/
def cleanLoop (rooted : Bool) : Nat → List Char → List Char → Nat → List Char
  | 0, _, out, _ => out
  | _ + 1, [], out, _ => out
  | fuel + 1, c :: tl, out, dotdot =>
    if c = '/' then
      -- empty path element
      cleanLoop rooted fuel tl out dotdot
    else if c = '.' && (tl.isEmpty || tl.head? = some '/') then
      -- . element
      cleanLoop rooted fuel tl out dotdot
    else if c = '.' && tl.head? = some '.' && (tl.tail.isEmpty || tl.tail.head? = some '/') then
      -- .. element: remove to last /
      if out.length > dotdot then
        -- can backtrack
        cleanLoop rooted fuel tl.tail (out.take (backtrack out dotdot (out.length - 1))) dotdot
      else if !rooted then
        -- cannot backtrack, but not rooted, so append .. element
        let out1 := if out.length > 0 then out ++ ['/'] else out
        let out2 := out1 ++ ['.', '.']
        cleanLoop rooted fuel tl.tail out2 out2.length
      else cleanLoop rooted fuel tl.tail out dotdot
    else
      -- real path element: add slash if needed, copy element
      let out1 :=
        if (rooted && out.length != 1) || (!rooted && out.length != 0) then out ++ ['/'] else out
      cleanLoop rooted fuel ((c :: tl).dropWhile (fun x => x != '/'))
        (out1 ++ (c :: tl).takeWhile (fun x => x != '/')) dotdot

/-- Go `path.Clean`: the shortest path name equivalent to `path` by purely
lexical processing. -/
def Clean (path : GoString) : GoString :=
  match path with
  | [] => ".".toList
  | p0 :: _ =>
    let rooted : Bool := p0 = '/'
    let out :=
      if rooted then cleanLoop rooted (path.length - 1) path.tail ['/'] 1
      else cleanLoop rooted path.length path [] 0
    -- Turn empty string into "."
    if out.length = 0 then ".".toList else out

/-- The loop of Go `path.Join` that builds the buffer handed to `Clean`. -/
def joinBuf : List GoString → List Char → List Char
  | [], buf => buf
  | e :: es, buf =>
    if buf.length > 0 || e != [] then
      joinBuf es ((if buf.length > 0 then buf ++ ['/'] else buf) ++ e)
    else joinBuf es buf

/-- Go `path.Join`: joins the elements with slashes and cleans the result;
empty elements are ignored, and the result is empty when all are empty. -/
def Join (es : List GoString) : GoString :=
  let size := (es.map List.length).sum
  if size = 0 then [] else Clean (joinBuf es [])

/-- The first argument that `Stage` passes to s3fs:
`fmt.Sprintf("%s:/%s", s3fs.meta.BucketName, path.Join(s3fs.meta.Prefix, s3fs.meta.FSPath))`. -/
def sourceSpec (s3fs : s3fsMounter) : GoString :=
  s3fs.meta.BucketName ++ ":/".toList ++ Join [s3fs.meta.Prefix, s3fs.meta.FSPath]

/-! ## The operating system -/

/-- A Go `error` value: an `*os.PathError` carrying a `syscall.Errno`, or an
error made by one of the collaborators. -/
inductive GoError where
  | pathError (op : String) (path : GoString) (errno : Nat)
  | collaborator (code : Nat)
  deriving DecidableEq, Repr

/-- Linux `syscall.ENOENT`. -/
def ENOENT : Nat := 2
/-- Linux `syscall.EBUSY`. -/
def EBUSY : Nat := 16
/-- Linux `syscall.ENOTDIR`. -/
def ENOTDIR : Nat := 20
/-- Linux `syscall.EISDIR`. -/
def EISDIR : Nat := 21
/-- Linux `syscall.EINVAL`. -/
def EINVAL : Nat := 22
/-- Linux `syscall.ENAMETOOLONG`. -/
def ENAMETOOLONG : Nat := 36
/-- Linux `syscall.ENOTEMPTY`. -/
def ENOTEMPTY : Nat := 39

/-- Go `os.IsNotExist`: the error reports that a file or directory does not
exist. -/
def IsNotExist (err : GoError) : Bool :=
  match err with
  | .pathError _ _ errno => errno = ENOENT
  | .collaborator _ => false

/-- A failure that the operating system may answer for a reason that the file
tree does not show: permissions, a read-only or full file system, a busy
mount point. -/
inductive Fault where
  | EPERM | EACCES | EBUSY | ENOSPC | EROFS
  deriving DecidableEq, Repr

/-- The Linux `syscall.Errno` of a fault. -/
def Fault.errno : Fault → Nat
  | .EPERM => 1
  | .ENOSPC => 28
  | .EACCES => 13
  | .EBUSY => 16
  | .EROFS => 30

/-- The UTF-8 encoding of a character. -/
def utf8Encode (c : Char) : List Nat :=
  let v := c.toNat
  if v ≤ 0x7F then [v]
  else if v ≤ 0x7FF then [0xC0 + v / 64, 0x80 + v % 64]
  else if v ≤ 0xFFFF then [0xE0 + v / 4096, 0x80 + v / 64 % 64, 0x80 + v % 64]
  else [0xF0 + v / 262144, 0x80 + v / 4096 % 64, 0x80 + v / 64 % 64, 0x80 + v % 64]

/-- The bytes of a Go string. -/
def goBytes (s : GoString) : List Nat :=
  s.flatMap utf8Encode

/-- A file or a directory with its entries: the file tree, without symbolic
links. -/
inductive Tree where
  | file (content : List Nat)
  | dir (entries : List (GoString × Tree))

/-- The tree at the end of a list of names, from the top of `t`. -/
def Tree.find : Tree → List GoString → Option Tree
  | t, [] => some t
  | .file _, _ :: _ => none
  | .dir es, n :: ks =>
    match es.lookup n with
    | some c => c.find ks
    | none => none

/-- The entries `es` with the entry `n` replaced by `v`, or removed when `v`
is `none`. -/
def putEntry (es : List (GoString × Tree)) (n : GoString) (v : Option Tree) :
    List (GoString × Tree) :=
  match v with
  | some x => (n, x) :: es.filter (fun e => e.1 != n)
  | none => es.filter (fun e => e.1 != n)

/-- The tree `t` with the tree at the end of a list of names replaced by `v`,
or removed when `v` is `none`; `t` itself when the directory that is to hold
it does not exist. -/
def Tree.put : Tree → List GoString → Option Tree → Tree
  | t, [], v => v.getD t
  | .file c, _ :: _, _ => .file c
  | .dir es, n :: ks, v =>
    match ks with
    | [] => .dir (putEntry es n v)
    | _ :: _ =>
      match es.lookup n with
      | some c => .dir (putEntry es n (some (c.put ks v)))
      | none => .dir es

/-- What a path names. -/
inductive Node where
  | absent
  | file (content : List Nat)
  | dir (empty : Bool)
  deriving DecidableEq, Repr

/-- What a tree is, seen from outside. -/
def toNode : Option Tree → Node
  | none => .absent
  | some (.file content) => .file content
  | some (.dir es) => .dir es.isEmpty

/-- The entries of a directory. -/
def Tree.entries : Tree → List (GoString × Tree)
  | .file _ => []
  | .dir es => es

/-- The state of the operating system that the mounter acts on. -/
structure OS where
  /-- The environment: `os.Getenv`. -/
  environ : GoString → GoString
  /-- The entries of the root directory. -/
  root : List (GoString × Tree)
  /-- The working directory, as the names that lead to it from the root. -/
  cwd : List GoString
  /-- The paths for which `open` fails, with the reason. -/
  openFault : GoString → Option Fault
  /-- The paths for which `write` fails, with the number of bytes written
  before the failure and the reason. -/
  writeFault : GoString → Option (Nat × Fault)
  /-- The paths for which `unlink` and `rmdir` fail, with the reason. -/
  removeFault : GoString → Option Fault
  /-- What the collaborators keep, such as the paths they mounted; the system
  calls below do not read it: a mount point that is busy is a fault. -/
  mounts : List GoString

/-- What is at the end of a list of names that starts at the root. -/
def OS.lookup (os : OS) (key : List GoString) : Node :=
  toNode ((Tree.dir os.root).find key)

/-- Replaces, or removes, what is at the end of a list of names. -/
def OS.update (os : OS) (key : List GoString) (v : Option Tree) : OS :=
  { os with root := ((Tree.dir os.root).put key v).entries }

/-- The names of a path: the parts between slashes that are not empty. -/
def components (p : GoString) : List GoString :=
  fieldsLoop (fun c => c = '/') p none []

/-- The last name of a path, as the kernel classifies it. -/
inductive Last where
  | root
  | dot
  | dotdot
  | norm (name : GoString)
  deriving DecidableEq, Repr

/-- The class of the last of the names of a path. -/
def lastOf (comps : List GoString) : Last :=
  match comps.getLast? with
  | none => .root
  | some n => if n = ".".toList then .dot else if n = "..".toList then .dotdot else .norm n

/-- Linux `NAME_MAX`. -/
def NAME_MAX : Nat := 255
/-- Linux `PATH_MAX`. -/
def PATH_MAX : Nat := 4096

/-- The walk of path resolution through the names `comps` from the directory
`cur`: each name must be a directory.  The result is the directory reached. -/
def walk (view : List GoString → Node) :
    List GoString → List GoString → Except Nat (List GoString)
  | cur, [] => .ok cur
  | cur, c :: cs =>
    if c = ".".toList then walk view cur cs
    else if c = "..".toList then walk view cur.dropLast cs
    else if (goBytes c).length > NAME_MAX then .error ENAMETOOLONG
    else
      match view (cur ++ [c]) with
      | .absent => .error ENOENT
      | .file _ => .error ENOTDIR
      | .dir _ => walk view (cur ++ [c]) cs

/-- Path resolution up to the last name: the directory that the names before
the last lead to, from the root for a path that begins with a slash and from
the working directory else (which must still be there), and the class of the
last name. -/
def OS.parent (os : OS) (p : GoString) : Except Nat (List GoString × Last) :=
  if p = [] then .error ENOENT
  else if (goBytes p).length ≥ PATH_MAX then .error ENAMETOOLONG
  else
    match os.lookup (if p.head? = some '/' then [] else os.cwd) with
    | .dir _ =>
      match walk os.lookup (if p.head? = some '/' then [] else os.cwd)
          (components p).dropLast with
      | .error e => .error e
      | .ok dir => .ok (dir, lastOf (components p))
    | _ => .error ENOENT

/-- The path ends in a slash: its last name must be a directory. -/
def trailingSlash (p : GoString) : Bool :=
  p.getLast? = some '/'

/-- The path holds a NUL byte: Go refuses it with `EINVAL` before any system
call. -/
def hasNul (p : GoString) : Bool :=
  p.contains (Char.ofNat 0)

/-- What `stat` answers for a path: the node it names, or the error of its
resolution. -/
def OS.stat (os : OS) (p : GoString) : Except Nat Node :=
  if hasNul p then .error EINVAL
  else
    match os.parent p with
    | .error e => .error e
    | .ok (dir, .root) => .ok (os.lookup dir)
    | .ok (dir, .dot) => .ok (os.lookup dir)
    | .ok (dir, .dotdot) => .ok (os.lookup dir.dropLast)
    | .ok (dir, .norm n) =>
      if (goBytes n).length > NAME_MAX then .error ENAMETOOLONG
      else
        match os.lookup (dir ++ [n]) with
        | .absent => .error ENOENT
        | .file content => if trailingSlash p then .error ENOTDIR else .ok (.file content)
        | .dir empty => .ok (.dir empty)

/-- What a path names; nothing when it cannot be resolved. -/
def OS.node (os : OS) (p : GoString) : Node :=
  match os.stat p with
  | .ok n => n
  | .error _ => .absent

/-- Linux `unlink(2)` as Go calls it: the file to remove, or the error. -/
def sysUnlink (os : OS) (p : GoString) : Except Nat (List GoString) :=
  if hasNul p then .error EINVAL
  else
    match os.removeFault p with
    | some fault => .error fault.errno
    | none =>
      match os.parent p with
      | .error e => .error e
      | .ok (dir, .norm n) =>
        if (goBytes n).length > NAME_MAX then .error ENAMETOOLONG
        else
          match os.lookup (dir ++ [n]) with
          | .absent => .error ENOENT
          | .dir _ => .error EISDIR
          | .file _ => if trailingSlash p then .error ENOTDIR else .ok (dir ++ [n])
      | .ok _ => .error EISDIR

/-- Linux `rmdir(2)` as Go calls it: the directory to remove, or the error. -/
def sysRmdir (os : OS) (p : GoString) : Except Nat (List GoString) :=
  if hasNul p then .error EINVAL
  else
    match os.removeFault p with
    | some fault => .error fault.errno
    | none =>
      match os.parent p with
      | .error e => .error e
      | .ok (_, .root) => .error EBUSY
      | .ok (_, .dot) => .error EINVAL
      | .ok (_, .dotdot) => .error ENOTEMPTY
      | .ok (dir, .norm n) =>
        if (goBytes n).length > NAME_MAX then .error ENAMETOOLONG
        else
          match os.lookup (dir ++ [n]) with
          | .absent => .error ENOENT
          | .file _ => .error ENOTDIR
          | .dir false => .error ENOTEMPTY
          | .dir true => .ok (dir ++ [n])

/-- A call that leaves the mounter. -/
inductive Call where
  | OpenFile (name : GoString) (flag perm : Nat)
  | WriteString (name : GoString) (s : GoString)
  | Close (name : GoString)
  | Remove (name : GoString)
  | fuseMount (path command : GoString) (args : List GoString)
  | FuseUnmount (path : GoString)
  | Mount (source target fstype : GoString) (options : List GoString)
  | CleanupMountPoint (target : GoString)
  deriving DecidableEq, Repr

/-- The operating system and the calls made so far, oldest first. -/
structure State where
  os : OS
  trace : List Call

/-- The code outside `s3fs.go` that the mounter calls: `getCacheDir`,
`fuseMount`, `FuseUnmount` and `common.CleanupMountPoint` of the repository
and `Mount` of the `k8s.io/utils/mount` mounter.  Each may read and change
the whole operating-system state. -/
structure Collaborators where
  getCacheDir : GoString → GoString
  fuseMount : GoString → GoString → List GoString → OS → Option GoError × OS
  FuseUnmount : GoString → OS → Option GoError × OS
  Mount : GoString → GoString → GoString → List GoString → OS → Option GoError × OS
  CleanupMountPoint : GoString → OS → Option GoError × OS

/-- Linux `os.O_RDWR`. -/
def O_RDWR : Nat := 0x2
/-- Linux `os.O_CREATE`. -/
def O_CREATE : Nat := 0x40
/-- Linux `os.O_TRUNC`. -/
def O_TRUNC : Nat := 0x200
/-- Linux `os.O_APPEND`. -/
def O_APPEND : Nat := 0x400

/-- An open `*os.File`: its path, the file it is (the names that lead to it
from the root) and where the next write goes. -/
structure File where
  name : GoString
  key : List GoString
  offset : Nat
  append : Bool
  deriving DecidableEq, Repr

/-- The result of writing `b` at byte `off` of a file that holds `old`; a
write past the end leaves a hole of zero bytes. -/
def writeAt (old : List Nat) (off : Nat) (b : List Nat) : List Nat :=
  old.take off ++ List.replicate (off - old.length) 0 ++ b ++ old.drop (off + b.length)

/-- Linux `open(2)` for writing as Go calls it, with the flags `O_CREATE`,
`O_TRUNC` and `O_APPEND`: the directory of the file must exist, an absent
file is created only with `O_CREATE`, an existing file keeps its content
unless `O_TRUNC` is given, and the offset is 0. -/
def sysOpen (os : OS) (p : GoString) (flag : Nat) : Except Nat (File × OS) :=
  if hasNul p then .error EINVAL
  else
    match os.openFault p with
    | some fault => .error fault.errno
    | none =>
      match os.parent p with
      | .error e => .error e
      | .ok (dir, .norm n) =>
        if trailingSlash p && flag &&& O_CREATE != 0 then .error EISDIR
        else if (goBytes n).length > NAME_MAX then .error ENAMETOOLONG
        else
          let f : File :=
            { name := p, key := dir ++ [n], offset := 0, append := flag &&& O_APPEND != 0 }
          match os.lookup (dir ++ [n]) with
          | .dir _ => .error EISDIR
          | .absent =>
            if flag &&& O_CREATE != 0 then .ok (f, os.update (dir ++ [n]) (some (.file [])))
            else .error ENOENT
          | .file _ =>
            if trailingSlash p then .error ENOTDIR
            else if flag &&& O_TRUNC != 0 then .ok (f, os.update (dir ++ [n]) (some (.file [])))
            else .ok (f, os)
      | .ok _ => .error EISDIR

/-- Go `os.OpenFile` for writing.  The mode `perm` of a created file is
recorded in the call; the file tree holds no permission bits. -/
def OpenFile (name : GoString) (flag perm : Nat) (st : State) :
    Except GoError File × State :=
  let st1 : State := { st with trace := st.trace ++ [Call.OpenFile name flag perm] }
  match sysOpen st.os name flag with
  | .error e => (.error (.pathError "open" name e), st1)
  | .ok (f, os1) => (.ok f, { st1 with os := os1 })

/-- Go `(*os.File).WriteString`: writes the bytes of `s` at the offset of the
file, or at its end when the file was opened with `O_APPEND`.  A failing write
may have written a part of them. -/
def WriteString (f : File) (s : GoString) (st : State) : Option GoError × State :=
  let st1 : State := { st with trace := st.trace ++ [Call.WriteString f.name s] }
  let old := match st.os.lookup f.key with
    | .file content => content
    | _ => []
  let off := if f.append then old.length else f.offset
  match st.os.writeFault f.name with
  | some (k, e) =>
    (some (.pathError "write" f.name e.errno),
      { st1 with os := st.os.update f.key (some (.file (writeAt old off ((goBytes s).take k)))) })
  | none =>
    (none, { st1 with os := st.os.update f.key (some (.file (writeAt old off (goBytes s)))) })

/-- Go `(*os.File).Close`; `writes3fsPass` ignores its result. -/
def Close (f : File) (st : State) : State :=
  { st with trace := st.trace ++ [Call.Close f.name] }

/-- Go `os.Remove`: removes the named file or empty directory.  It tries
`unlink` and then `rmdir`, and when both fail it returns the error of `rmdir`,
unless that is `ENOTDIR`: then the error of `unlink`. -/
def Remove (name : GoString) (st : State) : Option GoError × State :=
  let st1 : State := { st with trace := st.trace ++ [Call.Remove name] }
  match sysUnlink st.os name with
  | .ok key => (none, { st1 with os := st.os.update key none })
  | .error e =>
    match sysRmdir st.os name with
    | .ok key => (none, { st1 with os := st.os.update key none })
    | .error e1 =>
      (some (.pathError "remove" name (if e1 != ENOTDIR then e1 else e)), st1)

/-- A call of a collaborator: it is recorded, and the collaborator acts on the
operating system. -/
def callOut (call : Call) (f : OS → Option GoError × OS) (st : State) :
    Option GoError × State :=
  ((f st.os).1, { os := (f st.os).2, trace := st.trace ++ [call] })

/-! ## The operations of the mounter -/

/-- The path of the credential file: `fmt.Sprintf("%s/.passwd-s3fs", os.Getenv("HOME"))`. -/
def pwFileName (os : OS) : GoString :=
  os.environ "HOME".toList ++ "/.passwd-s3fs".toList

/-- Go `writes3fsPass`. -/
def writes3fsPass (pwFileContent : GoString) (st : State) : Option GoError × State :=
  let pwFileName := pwFileName st.os
  match OpenFile pwFileName (O_RDWR ||| O_CREATE) 0o600 st with
  | (.error err, st1) => (some err, st1)
  | (.ok pwFile, st1) =>
    match WriteString pwFile pwFileContent st1 with
    | (some err, st2) => (some err, st2)
    | (none, st2) => (none, Close pwFile st2)

/-- The arguments that `Stage` passes to s3fs. -/
def stageArgs (c : Collaborators) (s3fs : s3fsMounter) (stageTarget : GoString) :
    List GoString :=
  let args := [
    sourceSpec s3fs,
    stageTarget,
    "-o".toList, "use_path_request_style".toList,
    "-o".toList, "url=".toList ++ s3fs.url,
    "-o".toList, "endpoint=".toList ++ s3fs.region,
    "-o".toList, "allow_other".toList,
    "-o".toList, "mp_umask=000".toList]
  -- parse and append extra options
  let extraOptions := parseExtraOptions c.getCacheDir s3fs
  args ++ extraOptions

/-- Go `(*s3fsMounter).Stage`. -/
def Stage (c : Collaborators) (s3fs : s3fsMounter) (stageTarget : GoString) (st : State) :
    Option GoError × State :=
  match writes3fsPass s3fs.pwFileContent st with
  | (some err, st1) => (some err, st1)
  | (none, st1) =>
    let args := stageArgs c s3fs stageTarget
    callOut (.fuseMount stageTarget s3fsCmd args) (c.fuseMount stageTarget s3fsCmd args) st1

/-- Go `(*s3fsMounter).Unstage`. -/
def Unstage (c : Collaborators) (stageTarget : GoString) (st : State) :
    Option GoError × State :=
  match callOut (.FuseUnmount stageTarget) (c.FuseUnmount stageTarget) st with
  | (some err, st1) => (some err, st1)
  | (none, st1) =>
    match Remove stageTarget st1 with
    | (some err, st2) => if !IsNotExist err then (some err, st2) else (none, st2)
    | (none, st2) => (none, st2)

/-- Go `(*s3fsMounter).Mount`: a bind mount makes `target` an alias of the
real mount point.  `mount.New("")` only builds the mounter value; its `Mount`
is `Collaborators.Mount`. -/
def Mount (c : Collaborators) (source target : GoString) (st : State) :
    Option GoError × State :=
  let mountOptions := ["bind".toList]
  match callOut (.Mount source target [] mountOptions)
      (c.Mount source target [] mountOptions) st with
  | (some err, st1) => (some err, st1)
  | (none, st1) => (none, st1)

/-- Go `(*s3fsMounter).Unmount`. -/
def Unmount (c : Collaborators) (target : GoString) (st : State) : Option GoError × State :=
  callOut (.CleanupMountPoint target) (c.CleanupMountPoint target) st


/-! ## Predicates of the statements -/

/-- No dollar sign of the string begins a placeholder: none is followed by an
opening brace, by the name of a special shell variable, or by a letter, a
digit or an underscore. -/
def noPlaceholder : GoString → Bool
  | c :: s0 :: tl =>
    !(c = '$' && (s0 = '{' || isShellSpecialVar s0 || isAlphaNum s0)) && noPlaceholder (s0 :: tl)
  | _ => true

/-- The mounter `s3fs` with the extra options `raw`. -/
def withExtraOptions (s3fs : s3fsMounter) (raw : GoString) : s3fsMounter :=
  { s3fs with meta := { s3fs.meta with ExtraOptions := raw } }

/-- No two neighbours in the string are both separators. -/
def SepFree (s : GoString) : Prop :=
  List.Chain' (fun a b => a ≠ '/' ∨ b ≠ '/') s

/-- The invariant of the loop of `path.Clean`: the buffer has no two
neighbouring separators, it ends in a separator only when it is the root `/`,
it begins with a separator exactly when the path is rooted, and the part
below `dotdot` ends in a separator only when it is the root. -/
structure CleanInv (rooted : Bool) (out : GoString) (dotdot : Nat) : Prop where
  free : SepFree out
  last : out.getLast? = some '/' → out = ['/']
  root : rooted = true → out.head? = some '/' ∧ dotdot = 1
  noroot : rooted = false → out.head? ≠ some '/'
  dd_le : dotdot ≤ out.length
  dd_last : (out.take dotdot).getLast? = some '/' → out.take dotdot = ['/']

/-- The kind of a node: nothing, a file or a directory. -/
def Node.kind : Node → Option Bool
  | .absent => none
  | .file _ => some false
  | .dir _ => some true

/-- The tree is a file or an empty directory: it has nothing below it. -/
def Tree.isLeaf : Tree → Bool
  | .file _ => true
  | .dir es => es.isEmpty

/-! ## Example states -/

/-- An operating system whose file tree is the directory `/root` with a
credential file that holds the bytes of `old`, and where no call fails. -/
def osWithPwFile (old : GoString) : OS :=
  { environ := fun k => if k = "HOME".toList then "/root".toList else []
    root := [("root".toList, .dir [(".passwd-s3fs".toList, .file (goBytes old))])]
    cwd := []
    openFault := fun _ => none
    writeFault := fun _ => none
    removeFault := fun _ => none
    mounts := [] }

/-- Collaborators that always succeed and change nothing. -/
def idleCollaborators : Collaborators :=
  { getCacheDir := fun b => "/var/cache/".toList ++ b
    fuseMount := fun _ _ _ os => (none, os)
    FuseUnmount := fun _ os => (none, os)
    Mount := fun _ _ _ _ os => (none, os)
    CleanupMountPoint := fun _ os => (none, os) }

/-- Collaborators whose mount invoker succeeds only for the command `s3fs`
with the source spec `b:/p/f`, and records the mount point. -/
def mountingCollaborators : Collaborators :=
  { idleCollaborators with
    fuseMount := fun path command args os =>
      (if command = "s3fs".toList ∧ args.head? = some "b:/p/f".toList then none
        else some (.collaborator 1),
       { os with mounts := os.mounts ++ [path] }) }

/-- An operating system whose file tree is the empty directory `/stage`, where
no call fails. -/
def osWithStageDir : OS :=
  { environ := fun _ => []
    root := [("stage".toList, .dir [])]
    cwd := []
    openFault := fun _ => none
    writeFault := fun _ => none
    removeFault := fun _ => none
    mounts := [] }

/-- Collaborators whose cleanup fails with the error 32 and changes nothing. -/
def busyCollaborators : Collaborators :=
  { idleCollaborators with FuseUnmount := fun _ os => (some (.collaborator 32), os) }

/-! ## The credential file -/

/-- The flags `O_RDWR|O_CREATE` that `writes3fsPass` opens the file with ask to
create it, and neither to truncate it nor to append to it. -/
theorem pwFile_flags :
    O_RDWR ||| O_CREATE = 66 ∧ (66 &&& O_CREATE != 0) = true ∧
    (66 &&& O_TRUNC != 0) = false ∧ (66 &&& O_APPEND != 0) = false := by
  decide

/-- C1, at a failing input: the credential file holds `oldkey:oldsecret`,
`writes3fsPass("k:s")` succeeds, and the file then holds `k:skey:oldsecret`,
which is not `k:s`: the tail of the previous content is left. -/
theorem writes3fsPass_leaves_old_tail :
    (writes3fsPass "k:s".toList ⟨osWithPwFile "oldkey:oldsecret".toList, []⟩).1 = none ∧
    (writes3fsPass "k:s".toList ⟨osWithPwFile "oldkey:oldsecret".toList, []⟩).2.os.node
        "/root/.passwd-s3fs".toList = .file (goBytes "k:skey:oldsecret".toList) ∧
    goBytes "k:skey:oldsecret".toList ≠ goBytes "k:s".toList := by
  decide

/-! ## `Stage` -/

/-- The file that `open` returns bears the path it was opened with. -/
theorem sysOpen_name (os : OS) (p : GoString) (flag : Nat) (f : File) (os1 : OS)
    (h : sysOpen os p flag = .ok (f, os1)) : f.name = p := by
  unfold sysOpen at h
  repeat' split at h
  all_goals first
    | (exfalso; exact Except.noConfusion h)
    | (simp only [Except.ok.injEq, Prod.mk.injEq] at h; rw [← h.1])

/-- The calls of `writes3fsPass`: a failed write is the open alone, or the
open and the write, of the credential file; a successful write is the open,
the write and the close.  The mount invoker is not among them. -/
theorem writes3fsPass_trace (content : GoString) (st : State) :
    (∀ e, (writes3fsPass content st).1 = some e →
      (writes3fsPass content st).2.trace = st.trace ++
          [Call.OpenFile (pwFileName st.os) 66 384] ∨
      (writes3fsPass content st).2.trace = st.trace ++
          [Call.OpenFile (pwFileName st.os) 66 384,
           Call.WriteString (pwFileName st.os) content]) ∧
    ((writes3fsPass content st).1 = none →
      (writes3fsPass content st).2.trace = st.trace ++
        [Call.OpenFile (pwFileName st.os) 66 384,
         Call.WriteString (pwFileName st.os) content,
         Call.Close (pwFileName st.os)]) := by
  obtain ⟨h1, _, _, _⟩ := pwFile_flags
  simp only [writes3fsPass, OpenFile, WriteString, Close, h1]
  cases hO : sysOpen st.os (pwFileName st.os) 66 with
  | error e => simp
  | ok r =>
    obtain ⟨f, os1⟩ := r
    have hname := sysOpen_name _ _ _ _ _ hO
    cases hW : os1.writeFault (pwFileName st.os) with
    | none => simp [hW, hname]
    | some ke => simp [hW, hname]

/-- C4: when the credential write succeeds, `Stage` calls the mount invoker
once, after the open, the write and the close of the credential file, with
target `stageTarget`, command `s3fs` and the arguments: the source spec,
`stageTarget`, the five fixed `-o` flags, and then the tokens of
`parseExtraOptions`; the result of `Stage` and the operating system it leaves
are those of that call, made on the operating system that the write left. -/
theorem Stage_invokes_s3fs_once (c : Collaborators) (s3fs : s3fsMounter)
    (stageTarget : GoString) (st : State)
    (hwrite : (writes3fsPass s3fs.pwFileContent st).1 = none) :
    (Stage c s3fs stageTarget st).2.trace = st.trace ++
      [Call.OpenFile (pwFileName st.os) 66 384,
       Call.WriteString (pwFileName st.os) s3fs.pwFileContent,
       Call.Close (pwFileName st.os),
       Call.fuseMount stageTarget "s3fs".toList
        ([s3fs.meta.BucketName ++ ":/".toList ++ Join [s3fs.meta.Prefix, s3fs.meta.FSPath],
          stageTarget,
          "-o".toList, "use_path_request_style".toList,
          "-o".toList, "url=".toList ++ s3fs.url,
          "-o".toList, "endpoint=".toList ++ s3fs.region,
          "-o".toList, "allow_other".toList,
          "-o".toList, "mp_umask=000".toList]
          ++ parseExtraOptions c.getCacheDir s3fs)] ∧
    (Stage c s3fs stageTarget st).1 =
      (c.fuseMount stageTarget "s3fs".toList
        ([s3fs.meta.BucketName ++ ":/".toList ++ Join [s3fs.meta.Prefix, s3fs.meta.FSPath],
          stageTarget,
          "-o".toList, "use_path_request_style".toList,
          "-o".toList, "url=".toList ++ s3fs.url,
          "-o".toList, "endpoint=".toList ++ s3fs.region,
          "-o".toList, "allow_other".toList,
          "-o".toList, "mp_umask=000".toList]
          ++ parseExtraOptions c.getCacheDir s3fs)
        (writes3fsPass s3fs.pwFileContent st).2.os).1 ∧
    (Stage c s3fs stageTarget st).2.os =
      (c.fuseMount stageTarget "s3fs".toList
        ([s3fs.meta.BucketName ++ ":/".toList ++ Join [s3fs.meta.Prefix, s3fs.meta.FSPath],
          stageTarget,
          "-o".toList, "use_path_request_style".toList,
          "-o".toList, "url=".toList ++ s3fs.url,
          "-o".toList, "endpoint=".toList ++ s3fs.region,
          "-o".toList, "allow_other".toList,
          "-o".toList, "mp_umask=000".toList]
          ++ parseExtraOptions c.getCacheDir s3fs)
        (writes3fsPass s3fs.pwFileContent st).2.os).2 := by
  have htrace := (writes3fsPass_trace s3fs.pwFileContent st).2 hwrite
  unfold Stage
  split
  · rename_i err st1 heq
    rw [heq] at hwrite
    simp at hwrite
  · rename_i st1 heq
    rw [heq] at htrace ⊢
    simp only at htrace
    refine ⟨?_, rfl, rfl⟩
    simp [callOut, htrace, stageArgs, sourceSpec, s3fsCmd]

/-- The witness of C4: a `Stage` on a node whose credential file is empty,
with a mount invoker that succeeds only for the command `s3fs` and the source
spec `b:/p/f` and records the mount point. -/
theorem Stage_invokes_s3fs_once_witness :
    (writes3fsPass "k:s".toList ⟨osWithPwFile [], []⟩).1 = none ∧
    (Stage mountingCollaborators
        (newS3fsMounter ⟨"b".toList, "p".toList, "f".toList, "-o dbglevel=info".toList⟩
          ⟨"http://s3".toList, "eu".toList, "k".toList, "s".toList⟩)
        "/stage".toList ⟨osWithPwFile [], []⟩).2.trace =
      [Call.OpenFile "/root/.passwd-s3fs".toList 66 384,
       Call.WriteString "/root/.passwd-s3fs".toList "k:s".toList,
       Call.Close "/root/.passwd-s3fs".toList,
       Call.fuseMount "/stage".toList "s3fs".toList
        ["b:/p/f".toList, "/stage".toList,
          "-o".toList, "use_path_request_style".toList,
          "-o".toList, "url=http://s3".toList,
          "-o".toList, "endpoint=eu".toList,
          "-o".toList, "allow_other".toList,
          "-o".toList, "mp_umask=000".toList,
          "-o".toList, "dbglevel=info".toList]] ∧
    (Stage mountingCollaborators
        (newS3fsMounter ⟨"b".toList, "p".toList, "f".toList, "-o dbglevel=info".toList⟩
          ⟨"http://s3".toList, "eu".toList, "k".toList, "s".toList⟩)
        "/stage".toList ⟨osWithPwFile [], []⟩).1 = none ∧
    (Stage mountingCollaborators
        (newS3fsMounter ⟨"b".toList, "p".toList, "f".toList, "-o dbglevel=info".toList⟩
          ⟨"http://s3".toList, "eu".toList, "k".toList, "s".toList⟩)
        "/stage".toList ⟨osWithPwFile [], []⟩).2.os.mounts = ["/stage".toList] :=
  have h := Stage_invokes_s3fs_once mountingCollaborators
    (newS3fsMounter ⟨"b".toList, "p".toList, "f".toList, "-o dbglevel=info".toList⟩
      ⟨"http://s3".toList, "eu".toList, "k".toList, "s".toList⟩)
    "/stage".toList ⟨osWithPwFile [], []⟩ (by decide)
  ⟨by decide, h.1, h.2.1.trans (by decide), (congrArg OS.mounts h.2.2).trans (by decide)⟩

/-- A failed credential write ends `Stage`: it returns the error of the write
and does nothing more, so the mount invoker is not called. -/
theorem Stage_aborts_on_write_failure (c : Collaborators) (s3fs : s3fsMounter)
    (stageTarget : GoString) (st : State) (e : GoError)
    (hwrite : (writes3fsPass s3fs.pwFileContent st).1 = some e) :
    Stage c s3fs stageTarget st = (some e, (writes3fsPass s3fs.pwFileContent st).2) := by
  unfold Stage
  split
  · rename_i err st1 heq
    rw [heq] at hwrite ⊢
    simp at hwrite
    rw [hwrite]
  · rename_i st1 heq
    rw [heq] at hwrite
    simp at hwrite

/-- After a successful credential write, the result of `Stage` and the
operating system it leaves are those of the mount invoker, called on the
operating system that the write left. -/
theorem Stage_returns_invoker_result (c : Collaborators) (s3fs : s3fsMounter)
    (stageTarget : GoString) (st : State)
    (hwrite : (writes3fsPass s3fs.pwFileContent st).1 = none) :
    (Stage c s3fs stageTarget st).1 =
      (c.fuseMount stageTarget s3fsCmd (stageArgs c s3fs stageTarget)
        (writes3fsPass s3fs.pwFileContent st).2.os).1 ∧
    (Stage c s3fs stageTarget st).2.os =
      (c.fuseMount stageTarget s3fsCmd (stageArgs c s3fs stageTarget)
        (writes3fsPass s3fs.pwFileContent st).2.os).2 := by
  unfold Stage
  split
  · rename_i err st1 heq
    rw [heq] at hwrite
    simp at hwrite
  · rename_i st1 heq
    rw [heq]
    simp [callOut]

/-- C5, at a failing input: the credential file holds `oldkey:oldsecret` and
the mounter is made for the access key `k` and the secret `s`.  The write
succeeds and `Stage` returns the result of the mount invoker, but the
credential file then holds `k:skey:oldsecret`, not `k:s`. -/
theorem Stage_leaves_old_credentials :
    (writes3fsPass "k:s".toList ⟨osWithPwFile "oldkey:oldsecret".toList, []⟩).1 = none ∧
    (Stage idleCollaborators
        (newS3fsMounter ⟨"b".toList, [], [], []⟩ ⟨[], [], "k".toList, "s".toList⟩)
        "/stage".toList ⟨osWithPwFile "oldkey:oldsecret".toList, []⟩).1 = none ∧
    (Stage idleCollaborators
        (newS3fsMounter ⟨"b".toList, [], [], []⟩ ⟨[], [], "k".toList, "s".toList⟩)
        "/stage".toList ⟨osWithPwFile "oldkey:oldsecret".toList, []⟩).2.os.node
          "/root/.passwd-s3fs".toList = .file (goBytes "k:skey:oldsecret".toList) ∧
    Node.file (goBytes "k:skey:oldsecret".toList) ≠
      Node.file (goBytes ("k".toList ++ ":".toList ++ "s".toList)) := by
  decide

/-! ## The file tree -/

/-- The entry `m` of a directory after the entry `n` was replaced or removed. -/
theorem lookup_putEntry (es : List (GoString × Tree)) (n m : GoString) (v : Option Tree) :
    (putEntry es n v).lookup m = if m = n then v else es.lookup m := by
  have hfilter : (es.filter (fun e => e.1 != n)).lookup m =
      if m = n then none else es.lookup m := by
    induction es with
    | nil => simp only [List.filter_nil, List.lookup_nil, ite_self]
    | cons e es ih =>
      obtain ⟨k, b⟩ := e
      by_cases hk : k = n
      · have hkb : (k != n) = false := by simpa using hk
        rw [List.filter_cons_of_neg (by simpa using hk), ih]
        by_cases hm : m = n
        · rw [if_pos hm, if_pos hm]
        · have hmk : (m == k) = false := by rw [hk]; simpa using hm
          rw [if_neg hm, if_neg hm, List.lookup_cons, hmk]
      · rw [List.filter_cons_of_pos (by simpa using hk), List.lookup_cons, List.lookup_cons, ih]
        by_cases hm : m = n
        · have hmk : (m == k) = false := by
            rw [hm]; simpa using fun h : n = k => hk h.symm
          rw [if_pos hm, hmk, if_pos hm]
        · rw [if_neg hm, if_neg hm]
  cases v with
  | none => exact hfilter
  | some x =>
    by_cases hm : m = n
    · have hb : (m == n) = true := by simpa using hm
      rw [if_pos hm]
      simp only [putEntry, List.lookup_cons, hb]
    · have hb : (m == n) = false := by simpa using hm
      rw [if_neg hm]
      simp only [putEntry, List.lookup_cons, hb]
      rw [hfilter, if_neg hm]

/-- Nothing is below a file or an empty directory. -/
theorem find_leaf (x : Tree) (hx : x.isLeaf = true) (K : List GoString) (hK : K ≠ []) :
    x.find K = none := by
  match K, hK, x, hx with
  | k :: K, _, .file _, _ => rfl
  | k :: K, _, .dir es, hx =>
    have : es = [] := by simpa [Tree.isLeaf] using hx
    subst this
    simp [Tree.find]

/-- What is at a place of the tree after it was replaced or removed. -/
theorem find_put_same (key : List GoString) :
    ∀ (t : Tree) (v : Option Tree), key ≠ [] → t.find key ≠ none →
      (t.put key v).find key = v := by
  induction key with
  | nil => intro t v h; exact absurd rfl h
  | cons n ks ih =>
    intro t v _ hfind
    match t, ks, ih, hfind with
    | .file _, _, _, hfind => simp [Tree.find] at hfind
    | .dir es, [], _, _ =>
      simp only [Tree.put, Tree.find, lookup_putEntry, if_true]
      cases v <;> rfl
    | .dir es, k :: ks, ih, hfind =>
      simp only [Tree.find] at hfind
      cases hl : es.lookup n with
      | none => simp [hl] at hfind
      | some c =>
        rw [hl] at hfind
        simp only [Tree.put, hl, Tree.find, lookup_putEntry, if_true]
        exact ih c v (by simp) hfind

/-- Replacing or removing a file or an empty directory, by a file or an empty
directory, keeps the kind of what is at every other place of the tree. -/
theorem find_put_other (key : List GoString) :
    ∀ (t : Tree) (v : Option Tree) (K : List GoString) (x : Tree),
      t.find key = some x → x.isLeaf = true → (∀ y, v = some y → y.isLeaf = true) →
      K ≠ key → key ≠ [] →
      (toNode ((t.put key v).find K)).kind = (toNode (t.find K)).kind := by
  induction key with
  | nil => intro t v K x _ _ _ _ h; exact absurd rfl h
  | cons n ks ih =>
    intro t v K x hfind hx hv hK _
    match t, ks, ih, hfind, hK with
    | .file _, _, _, hfind, _ => simp [Tree.find] at hfind
    | .dir es, [], _, hfind, hK =>
      simp only [Tree.find] at hfind
      cases hl : es.lookup n with
      | none => simp [hl] at hfind
      | some c =>
        rw [hl] at hfind
        simp only [Tree.find, Option.some.injEq] at hfind
        subst hfind
        match K, hK with
        | [], _ => simp [Tree.put, Tree.find, toNode, Node.kind]
        | m :: K, hK =>
          simp only [Tree.put, Tree.find, lookup_putEntry]
          by_cases hm : m = n
          · subst hm
            have hK2 : K ≠ [] := fun h => hK (by rw [h])
            rw [if_pos rfl, hl]
            simp only [find_leaf c hx K hK2]
            cases v with
            | none => rfl
            | some y => simp only [find_leaf y (hv y rfl) K hK2]
          · rw [if_neg hm]
    | .dir es, k :: ks, ih, hfind, hK =>
      simp only [Tree.find] at hfind
      cases hl : es.lookup n with
      | none => simp [hl] at hfind
      | some c =>
        simp only [hl] at hfind
        have hc : c.find (k :: ks) = some x := hfind
        match K, hK with
        | [], _ => simp [Tree.put, hl, Tree.find, toNode, Node.kind]
        | m :: K, hK =>
          simp only [Tree.put, hl, Tree.find, lookup_putEntry]
          by_cases hm : m = n
          · subst hm
            have hK2 : K ≠ k :: ks := fun h => hK (by rw [h])
            rw [if_pos rfl, hl]
            exact ih c v K x hc hx hv hK2 (by simp)
          · rw [if_neg hm]

/-- A directory stays a directory when something below it is replaced. -/
theorem put_dir_entries (es : List (GoString × Tree)) (key : List GoString) (v : Option Tree)
    (h : key ≠ []) : Tree.dir ((Tree.dir es).put key v).entries = (Tree.dir es).put key v := by
  match key, h with
  | [n], _ => rfl
  | n :: k :: ks, _ =>
    simp only [Tree.put]
    cases es.lookup n <;> rfl

/-- What is at the end of a list of names after an update of the file tree. -/
theorem lookup_update (os : OS) (key K : List GoString) (v : Option Tree) (h : key ≠ []) :
    (os.update key v).lookup K = toNode (((Tree.dir os.root).put key v).find K) := by
  simp only [OS.lookup, OS.update, put_dir_entries os.root key v h]

/-- The walk of path resolution reads only the kinds of the nodes. -/
theorem walk_congr (view view1 : List GoString → Node)
    (h : ∀ K, (view1 K).kind = (view K).kind) :
    ∀ (comps cur : List GoString), walk view1 cur comps = walk view cur comps := by
  intro comps
  induction comps with
  | nil => intro cur; rfl
  | cons c cs ih =>
    intro cur
    simp only [walk]
    split
    · exact ih _
    · split
      · exact ih _
      · split
        · rfl
        · have hk := h (cur ++ [c])
          cases h1 : view1 (cur ++ [c]) <;> cases h2 : view (cur ++ [c]) <;>
            simp [h1, h2, Node.kind] at hk ⊢
          exact ih _

/-- After a node was removed, the walk of path resolution goes as before or
fails because a name is missing. -/
theorem walk_removed (view view1 : List GoString → Node) (key : List GoString)
    (h : ∀ K, K ≠ key → (view1 K).kind = (view K).kind) (hkey : view1 key = .absent) :
    ∀ (comps cur : List GoString),
      walk view1 cur comps = walk view cur comps ∨ walk view1 cur comps = .error ENOENT := by
  intro comps
  induction comps with
  | nil => intro cur; exact Or.inl rfl
  | cons c cs ih =>
    intro cur
    simp only [walk]
    split
    · exact ih _
    · split
      · exact ih _
      · split
        · exact Or.inl rfl
        · by_cases hc : cur ++ [c] = key
          · right
            rw [hc, hkey]
          · have hk := h (cur ++ [c]) hc
            cases h1 : view1 (cur ++ [c]) <;> cases h2 : view (cur ++ [c]) <;>
              simp [h1, h2, Node.kind] at hk ⊢
            exact ih _

/-- A file and an empty directory have nothing below them. -/
theorem toNode_leaf (o : Option Tree) (h : (∃ c, toNode o = .file c) ∨ toNode o = .dir true) :
    ∃ x, o = some x ∧ x.isLeaf = true := by
  match o, h with
  | some (.file c), _ => exact ⟨_, rfl, rfl⟩
  | some (.dir es), .inr h =>
    refine ⟨_, rfl, ?_⟩
    simpa [toNode, Tree.isLeaf] using h
  | some (.dir es), .inl ⟨c, h⟩ => simp [toNode] at h
  | none, .inl ⟨c, h⟩ => simp [toNode] at h
  | none, .inr h => simp [toNode] at h

/-- What `unlink` removes: a file, at the end of a path that resolves and
whose last name is an ordinary name. -/
theorem sysUnlink_ok (os : OS) (p : GoString) (key : List GoString)
    (h : sysUnlink os p = .ok key) :
    hasNul p = false ∧ os.removeFault p = none ∧
    ∃ dir n, key = dir ++ [n] ∧ os.parent p = .ok (dir, .norm n) ∧
      ¬ (goBytes n).length > NAME_MAX ∧ ∃ c, os.lookup key = .file c := by
  unfold sysUnlink at h
  split at h
  · exact Except.noConfusion h
  · rename_i hnul
    split at h
    · exact Except.noConfusion h
    · rename_i hfault
      split at h
      · exact Except.noConfusion h
      · rename_i dir n hparent
        split at h
        · exact Except.noConfusion h
        · rename_i hlen
          split at h
          · exact Except.noConfusion h
          · exact Except.noConfusion h
          · rename_i c hlook
            split at h
            · exact Except.noConfusion h
            · simp only [Except.ok.injEq] at h
              subst h
              exact ⟨by simpa using hnul, hfault, dir, n, rfl, hparent, hlen, c, hlook⟩
      · exact Except.noConfusion h

/-- What `rmdir` removes: an empty directory, at the end of a path that
resolves and whose last name is an ordinary name. -/
theorem sysRmdir_ok (os : OS) (p : GoString) (key : List GoString)
    (h : sysRmdir os p = .ok key) :
    hasNul p = false ∧ os.removeFault p = none ∧
    ∃ dir n, key = dir ++ [n] ∧ os.parent p = .ok (dir, .norm n) ∧
      ¬ (goBytes n).length > NAME_MAX ∧ os.lookup key = .dir true := by
  unfold sysRmdir at h
  split at h
  · exact Except.noConfusion h
  · rename_i hnul
    split at h
    · exact Except.noConfusion h
    · rename_i hfault
      split at h
      · exact Except.noConfusion h
      · exact Except.noConfusion h
      · exact Except.noConfusion h
      · exact Except.noConfusion h
      · rename_i dir n hparent
        split at h
        · exact Except.noConfusion h
        · rename_i hlen
          split at h
          · exact Except.noConfusion h
          · exact Except.noConfusion h
          · exact Except.noConfusion h
          · rename_i hlook
            simp only [Except.ok.injEq] at h
            subst h
            exact ⟨by simpa using hnul, hfault, dir, n, rfl, hparent, hlen, hlook⟩

/-- Path resolution up to the last name reads only the kinds of the nodes and
the working directory. -/
theorem parent_congr (os os1 : OS) (p : GoString) (hcwd : os1.cwd = os.cwd)
    (h : ∀ K, (os1.lookup K).kind = (os.lookup K).kind) : os1.parent p = os.parent p := by
  unfold OS.parent
  rw [hcwd, walk_congr os.lookup os1.lookup h]
  have hk := h (if p.head? = some '/' then [] else os.cwd)
  cases h1 : os1.lookup (if p.head? = some '/' then [] else os.cwd) <;>
    cases h2 : os.lookup (if p.head? = some '/' then [] else os.cwd) <;>
    simp [h1, h2, Node.kind] at hk ⊢

/-- After a node was removed, path resolution up to the last name goes as
before or fails because a name is missing. -/
theorem parent_removed (os os1 : OS) (p : GoString) (key : List GoString)
    (hcwd : os1.cwd = os.cwd)
    (h : ∀ K, K ≠ key → (os1.lookup K).kind = (os.lookup K).kind)
    (hkey : os1.lookup key = .absent) :
    os1.parent p = os.parent p ∨ os1.parent p = .error ENOENT := by
  unfold OS.parent
  rw [hcwd]
  by_cases hp : p = []
  · left; rw [if_pos hp, if_pos hp]
  · rw [if_neg hp, if_neg hp]
    by_cases hl : (goBytes p).length ≥ PATH_MAX
    · left; rw [if_pos hl, if_pos hl]
    · rw [if_neg hl, if_neg hl]
      by_cases hs : (if p.head? = some '/' then [] else os.cwd) = key
      · right
        rw [hs, hkey]
      · have hk := h _ hs
        rcases walk_removed os.lookup os1.lookup key h hkey (components p).dropLast
            (if p.head? = some '/' then [] else os.cwd) with hw | hw
        · left
          rw [hw]
          cases h1 : os1.lookup (if p.head? = some '/' then [] else os.cwd) <;>
            cases h2 : os.lookup (if p.head? = some '/' then [] else os.cwd) <;>
            simp [h1, h2, Node.kind] at hk ⊢
        · right
          rw [hw]
          cases h1 : os1.lookup (if p.head? = some '/' then [] else os.cwd) <;> rfl

/-- The class of the last name that path resolution returns is that of the
last of the names of the path. -/
theorem parent_last (os : OS) (p : GoString) (dir : List GoString) (last : Last)
    (h : os.parent p = .ok (dir, last)) : last = lastOf (components p) := by
  unfold OS.parent at h
  split at h
  · exact Except.noConfusion h
  · split at h
    · exact Except.noConfusion h
    · split at h
      · split at h
        · exact Except.noConfusion h
        · simp only [Except.ok.injEq, Prod.mk.injEq] at h
          exact h.2.symm
      · exact Except.noConfusion h

/-- The directory that holds a directory is a directory. -/
theorem find_dropLast_dir (K : List GoString) :
    ∀ (t : Tree), (toNode (t.find K)).kind = some true →
      (toNode (t.find K.dropLast)).kind = some true := by
  induction K with
  | nil => intro t h; exact h
  | cons n K ih =>
    intro t h
    match t, K, ih, h with
    | .file _, _, _, h => simp [Tree.find, toNode, Node.kind] at h
    | .dir es, [], _, _ => rfl
    | .dir es, m :: K, ih, h =>
      simp only [Tree.find, List.dropLast_cons₂] at h ⊢
      cases hl : es.lookup n with
      | none => simp [hl, toNode, Node.kind] at h
      | some c =>
        simp only [hl] at h ⊢
        exact ih c h

/-- The walk of path resolution, begun in a directory, ends in a directory. -/
theorem walk_isDir (os : OS) :
    ∀ (comps cur d : List GoString), (os.lookup cur).kind = some true →
      walk os.lookup cur comps = .ok d → (os.lookup d).kind = some true := by
  intro comps
  induction comps with
  | nil =>
    intro cur d hcur h
    simp only [walk, Except.ok.injEq] at h
    rw [← h]
    exact hcur
  | cons c cs ih =>
    intro cur d hcur h
    simp only [walk] at h
    split at h
    · exact ih _ _ hcur h
    · split at h
      · exact ih _ _ (find_dropLast_dir cur _ hcur) h
      · split at h
        · exact Except.noConfusion h
        · split at h
          · exact Except.noConfusion h
          · exact Except.noConfusion h
          · rename_i e hl
            exact ih _ _ (by rw [hl]; rfl) h

/-- The directory that path resolution reaches is a directory. -/
theorem parent_isDir (os : OS) (p : GoString) (dir : List GoString) (last : Last)
    (h : os.parent p = .ok (dir, last)) : (os.lookup dir).kind = some true := by
  unfold OS.parent at h
  split at h
  · exact Except.noConfusion h
  · split at h
    · exact Except.noConfusion h
    · split at h
      · rename_i e hs
        split at h
        · exact Except.noConfusion h
        · rename_i d hw
          simp only [Except.ok.injEq, Prod.mk.injEq] at h
          rw [← h.1]
          exact walk_isDir os _ _ _ (by rw [hs]; rfl) hw
      · exact Except.noConfusion h

/-- After the node at the end of a path was removed, `stat` answers that the
path does not exist. -/
theorem stat_removed (os : OS) (p : GoString) (dir : List GoString) (n : GoString)
    (hnul : hasNul p = false) (hparent : os.parent p = .ok (dir, .norm n))
    (hname : ¬ (goBytes n).length > NAME_MAX)
    (hleaf : (∃ c, os.lookup (dir ++ [n]) = .file c) ∨ os.lookup (dir ++ [n]) = .dir true) :
    (os.update (dir ++ [n]) none).stat p = .error ENOENT := by
  obtain ⟨x, hx, hxleaf⟩ := toNode_leaf _ hleaf
  have hkey : dir ++ [n] ≠ [] := by simp
  have hview : ∀ K, K ≠ dir ++ [n] →
      ((os.update (dir ++ [n]) none).lookup K).kind = (os.lookup K).kind := by
    intro K hK
    rw [lookup_update os _ K none hkey]
    exact find_put_other (dir ++ [n]) (Tree.dir os.root) none K x hx hxleaf
      (fun y hy => Option.noConfusion hy) hK hkey
  have hgone : (os.update (dir ++ [n]) none).lookup (dir ++ [n]) = .absent := by
    rw [lookup_update os _ _ none hkey,
      find_put_same (dir ++ [n]) (Tree.dir os.root) none hkey (by rw [hx]; simp)]
    rfl
  unfold OS.stat
  rw [hnul]
  simp only [Bool.false_eq_true, if_false]
  rcases parent_removed os (os.update (dir ++ [n]) none) p (dir ++ [n]) rfl hview hgone
    with hp | hp
  · rw [hp, hparent]
    simp only [hgone, if_neg hname]
  · rw [hp]

/-- After the file at the end of a path was given a new content, `stat`
answers the file with that content. -/
theorem stat_written (os : OS) (p : GoString) (dir : List GoString) (n : GoString)
    (old new : List Nat)
    (hnul : hasNul p = false) (hparent : os.parent p = .ok (dir, .norm n))
    (hname : ¬ (goBytes n).length > NAME_MAX) (htrail : trailingSlash p = false)
    (hfile : os.lookup (dir ++ [n]) = .file old) :
    (os.update (dir ++ [n]) (some (.file new))).stat p = .ok (.file new) := by
  obtain ⟨x, hx, hxleaf⟩ := toNode_leaf _ (Or.inl ⟨old, hfile⟩)
  have hkey : dir ++ [n] ≠ [] := by simp
  have hthere : (os.update (dir ++ [n]) (some (.file new))).lookup (dir ++ [n]) = .file new := by
    rw [lookup_update os _ _ _ hkey,
      find_put_same (dir ++ [n]) (Tree.dir os.root) _ hkey (by rw [hx]; simp)]
    rfl
  have hview : ∀ K,
      ((os.update (dir ++ [n]) (some (.file new))).lookup K).kind = (os.lookup K).kind := by
    intro K
    by_cases hK : K = dir ++ [n]
    · rw [hK, hthere, hfile]
      rfl
    · rw [lookup_update os _ K _ hkey]
      refine find_put_other (dir ++ [n]) (Tree.dir os.root) _ K x hx hxleaf ?_ hK hkey
      intro y hy
      simp only [Option.some.injEq] at hy
      rw [← hy]
      rfl
  unfold OS.stat
  rw [hnul, parent_congr os (os.update (dir ++ [n]) (some (.file new))) p rfl hview, hparent]
  simp only [Bool.false_eq_true, if_false, if_neg hname, hthere, htrail]

/-- What `stat` read when it answered a file. -/
theorem stat_file (os : OS) (p : GoString) (content : List Nat)
    (h : os.stat p = .ok (.file content)) :
    hasNul p = false ∧ trailingSlash p = false ∧
    ∃ dir n, os.parent p = .ok (dir, .norm n) ∧ ¬ (goBytes n).length > NAME_MAX ∧
      os.lookup (dir ++ [n]) = .file content := by
  unfold OS.stat at h
  cases hn : hasNul p with
  | true => simp [hn] at h
  | false =>
    simp only [hn, Bool.false_eq_true, if_false] at h
    cases hp : os.parent p with
    | error e => simp [hp] at h
    | ok r =>
      obtain ⟨dir, last⟩ := r
      have hdir := parent_isDir os p dir last hp
      have hdir2 := find_dropLast_dir dir (Tree.dir os.root) hdir
      cases last with
      | root =>
        simp only [hp, Except.ok.injEq] at h
        rw [h] at hdir
        simp [Node.kind] at hdir
      | dot =>
        simp only [hp, Except.ok.injEq] at h
        rw [h] at hdir
        simp [Node.kind] at hdir
      | dotdot =>
        simp only [hp, Except.ok.injEq] at h
        rw [OS.lookup] at h
        rw [h] at hdir2
        simp [Node.kind] at hdir2
      | norm n =>
        simp only [hp] at h
        by_cases hlen : (goBytes n).length > NAME_MAX
        · simp [if_pos hlen] at h
        · simp only [if_neg hlen] at h
          cases hl : os.lookup (dir ++ [n]) with
          | absent => simp [hl] at h
          | dir empty => simp [hl] at h
          | file c =>
            cases htr : trailingSlash p
            · simp only [hl, htr, Bool.false_eq_true, if_false, Except.ok.injEq,
                Node.file.injEq] at h
              subst h
              exact ⟨rfl, rfl, dir, n, rfl, hlen, hl⟩
            · simp [hl, htr] at h

/-- What `writes3fsPass` does to a credential file that exists, when neither
the open nor the write fails: it succeeds, and the file holds the bytes of
the new content followed by the old bytes beyond their length. -/
theorem writes3fsPass_over_file (content : GoString) (st : State) (old : List Nat)
    (hnode : st.os.node (pwFileName st.os) = .file old)
    (hopen : st.os.openFault (pwFileName st.os) = none)
    (hwrite : st.os.writeFault (pwFileName st.os) = none) :
    (writes3fsPass content st).1 = none ∧
    (writes3fsPass content st).2.os.node (pwFileName st.os) =
      .file (goBytes content ++ old.drop (goBytes content).length) := by
  have hstat : st.os.stat (pwFileName st.os) = .ok (.file old) := by
    unfold OS.node at hnode
    cases hs : st.os.stat (pwFileName st.os) with
    | error e => simp [hs] at hnode
    | ok nd =>
      simp only [hs] at hnode
      rw [hnode]
  obtain ⟨hnul, htrail, dir, n, hparent, hname, hfile⟩ := stat_file _ _ _ hstat
  obtain ⟨h1, h2, h3, h4⟩ := pwFile_flags
  have hopened : sysOpen st.os (pwFileName st.os) 66 =
      .ok ({ name := pwFileName st.os, key := dir ++ [n], offset := 0, append := false },
        st.os) := by
    unfold sysOpen
    simp only [hnul, Bool.false_eq_true, if_false, hopen, hparent, htrail, Bool.false_and,
      if_neg hname, hfile, h3, h4]
  have hwritten := stat_written st.os (pwFileName st.os) dir n old
    (writeAt old 0 (goBytes content)) hnul hparent hname htrail hfile
  simp only [writes3fsPass, OpenFile, WriteString, Close, h1, hopened, hwrite, hfile,
    Bool.false_eq_true, if_false, OS.node, hwritten, true_and]
  simp [writeAt]

/-- When a path cannot be resolved, `os.Remove` fails with the error of the
resolution. -/
theorem Remove_of_stat_error (name : GoString) (st : State) (e : Nat)
    (h : st.os.stat name = .error e) (hfault : st.os.removeFault name = none) :
    Remove name st =
      (some (.pathError "remove" name e),
        { st with trace := st.trace ++ [Call.Remove name] }) := by
  unfold OS.stat at h
  unfold Remove sysUnlink sysRmdir
  cases hn : hasNul name with
  | true =>
    simp only [hn, if_true, Except.error.injEq] at h
    subst h
    simp [EINVAL, ENOTDIR]
  | false =>
    simp only [hn, Bool.false_eq_true, if_false, hfault] at h ⊢
    cases hp : st.os.parent name with
    | error e1 =>
      simp only [hp, Except.error.injEq] at h
      subst h
      simp
    | ok r =>
      obtain ⟨dir, last⟩ := r
      cases last with
      | root => simp [hp] at h
      | dot => simp [hp] at h
      | dotdot => simp [hp] at h
      | norm n =>
        simp only [hp] at h ⊢
        by_cases hlen : (goBytes n).length > NAME_MAX
        · simp only [if_pos hlen, Except.error.injEq] at h ⊢
          subst h
          simp
        · simp only [if_neg hlen] at h ⊢
          cases hl : st.os.lookup (dir ++ [n]) with
          | absent =>
            simp only [hl, Except.error.injEq] at h
            subst h
            simp
          | dir empty => simp [hl] at h
          | file c =>
            simp only [hl] at h
            split at h
            · rename_i htr
              simp only [Except.error.injEq] at h
              subst h
              simp [htr]
            · exact Except.noConfusion h

/-- When `os.Remove` succeeds, `stat` then answers that the path does not
exist, and no fault was raised for the path. -/
theorem Remove_ok (name : GoString) (st : State) (h : (Remove name st).1 = none) :
    (Remove name st).2.os.stat name = .error ENOENT ∧ st.os.removeFault name = none := by
  unfold Remove at h ⊢
  cases hu : sysUnlink st.os name with
  | ok key =>
    obtain ⟨hnul, hfault, dir, n, hkey, hparent, hlen, hfile⟩ := sysUnlink_ok _ _ _ hu
    subst hkey
    exact ⟨stat_removed st.os name dir n hnul hparent hlen (Or.inl hfile), hfault⟩
  | error e =>
    cases hr : sysRmdir st.os name with
    | ok key =>
      obtain ⟨hnul, hfault, dir, n, hkey, hparent, hlen, hdir⟩ := sysRmdir_ok _ _ _ hr
      subst hkey
      exact ⟨stat_removed st.os name dir n hnul hparent hlen (Or.inr hdir), hfault⟩
    | error e1 => simp [hu, hr] at h

/-- When `unlink` and `rmdir` both fail and the error that `os.Remove` picks is
`ENOENT`, the path does not exist, and no fault was raised for it. -/
theorem sys_errors_notExist (os : OS) (p : GoString) (e e1 : Nat)
    (hu : sysUnlink os p = .error e) (hr : sysRmdir os p = .error e1)
    (h : (if e1 != ENOTDIR then e1 else e) = ENOENT) :
    os.stat p = .error ENOENT ∧ os.removeFault p = none := by
  unfold sysUnlink at hu
  unfold sysRmdir at hr
  unfold OS.stat
  cases hn : hasNul p with
  | true =>
    simp only [hn, if_true, Except.error.injEq] at hu hr
    subst hu hr
    simp [EINVAL, ENOTDIR, ENOENT] at h
  | false =>
    simp only [hn, Bool.false_eq_true, if_false] at hu hr ⊢
    cases hf : os.removeFault p with
    | some f =>
      simp only [hf, Except.error.injEq] at hu hr
      subst hu hr
      cases f <;> simp [Fault.errno, ENOTDIR, ENOENT] at h
    | none =>
      simp only [hf] at hu hr
      refine ⟨?_, rfl⟩
      cases hp : os.parent p with
      | error e2 =>
        simp only [hp, Except.error.injEq] at hu hr
        subst hu hr
        by_cases he : e2 = ENOTDIR
        · simp [he, ENOTDIR, ENOENT] at h
        · have : (e2 != ENOTDIR) = true := by simpa using he
          rw [this, if_pos rfl] at h
          rw [h]
      | ok r =>
        obtain ⟨dir, last⟩ := r
        cases last with
        | root =>
          simp only [hp, Except.error.injEq] at hu hr
          subst hu hr
          simp [EBUSY, ENOTDIR, ENOENT] at h
        | dot =>
          simp only [hp, Except.error.injEq] at hu hr
          subst hu hr
          simp [EINVAL, ENOTDIR, ENOENT] at h
        | dotdot =>
          simp only [hp, Except.error.injEq] at hu hr
          subst hu hr
          simp [ENOTEMPTY, ENOTDIR, ENOENT] at h
        | norm n =>
          simp only [hp] at hu hr ⊢
          by_cases hlen : (goBytes n).length > NAME_MAX
          · simp only [if_pos hlen, Except.error.injEq] at hu hr
            subst hu hr
            simp [ENAMETOOLONG, ENOTDIR, ENOENT] at h
          · simp only [if_neg hlen] at hu hr ⊢
            cases hl : os.lookup (dir ++ [n]) with
            | absent => rfl
            | dir empty =>
              cases empty with
              | true => simp [hl] at hr
              | false =>
                simp only [hl, Except.error.injEq] at hu hr
                subst hu hr
                simp [ENOTEMPTY, ENOTDIR, ENOENT] at h
            | file c =>
              simp only [hl, Except.error.injEq] at hu hr
              subst hr
              split at hu
              · simp only [Except.error.injEq] at hu
                subst hu
                simp [ENOTDIR, ENOENT] at h
              · exact Except.noConfusion hu

/-- When `os.Remove` fails with an error for which `os.IsNotExist` holds, the
path does not exist, nothing was changed, and no fault was raised for the
path. -/
theorem Remove_notExist (name : GoString) (st : State) (err : GoError)
    (h : (Remove name st).1 = some err) (hne : IsNotExist err = true) :
    st.os.stat name = .error ENOENT ∧ (Remove name st).2.os = st.os ∧
    st.os.removeFault name = none := by
  unfold Remove at h ⊢
  cases hu : sysUnlink st.os name with
  | ok key => simp [hu] at h
  | error e =>
    cases hr : sysRmdir st.os name with
    | ok key => simp [hu, hr] at h
    | error e1 =>
      simp only [hu, hr, Option.some.injEq] at h
      subst h
      have h2 : (if e1 != ENOTDIR then e1 else e) = ENOENT := by
        simpa [IsNotExist] using hne
      obtain ⟨hs, hf⟩ := sys_errors_notExist st.os name e e1 hu hr h2
      exact ⟨hs, rfl, hf⟩

/-- An empty directory at the end of a path whose last name is an ordinary
name is removed by `os.Remove` when no fault is raised. -/
theorem Remove_empty_dir (name : GoString) (st : State) (n : GoString)
    (h : st.os.node name = .dir true) (hlast : lastOf (components name) = .norm n)
    (hfault : st.os.removeFault name = none) :
    (Remove name st).1 = none := by
  unfold OS.node OS.stat at h
  unfold Remove sysUnlink sysRmdir
  cases hn : hasNul name with
  | true => simp [hn] at h
  | false =>
    simp only [hn, Bool.false_eq_true, if_false, hfault] at h ⊢
    cases hp : st.os.parent name with
    | error e1 => simp [hp] at h
    | ok r =>
      obtain ⟨dir, last⟩ := r
      have hl2 : last = .norm n := by
        rw [parent_last _ _ _ _ hp, hlast]
      subst hl2
      simp only [hp] at h ⊢
      by_cases hlen : (goBytes n).length > NAME_MAX
      · simp [if_pos hlen] at h
      · simp only [if_neg hlen] at h ⊢
        cases hl : st.os.lookup (dir ++ [n]) with
        | absent => simp [hl] at h
        | file c =>
          cases htr : trailingSlash name <;> simp [hl, htr] at h
        | dir empty =>
          simp only [hl, Node.dir.injEq] at h
          subst h
          rfl

/-- The answer of `stat` depends on the file tree and the working directory
only. -/
theorem stat_congr (os os1 : OS) (p : GoString) (hroot : os1.root = os.root)
    (hcwd : os1.cwd = os.cwd) : os1.stat p = os.stat p := by
  have hlookup : os1.lookup = os.lookup := by
    funext K
    simp only [OS.lookup, hroot]
  simp only [OS.stat, OS.parent, hlookup, hcwd]

/-- `os.Remove` leaves the faults as they are. -/
theorem Remove_removeFault (name : GoString) (st : State) :
    (Remove name st).2.os.removeFault = st.os.removeFault := by
  unfold Remove
  split
  · rfl
  · split <;> rfl

/-! ## `Unstage` -/

/-- C6: when the cleanup of the mount point fails, `Unstage` returns that
failure, its only call is the cleanup (the removal of the directory is not
attempted), and it leaves the operating system as the cleanup left it. -/
theorem Unstage_cleanup_failure (c : Collaborators) (stageTarget : GoString) (st : State)
    (e : GoError) (hclean : (c.FuseUnmount stageTarget st.os).1 = some e) :
    (Unstage c stageTarget st).1 = some e ∧
    (Unstage c stageTarget st).2.trace = st.trace ++ [Call.FuseUnmount stageTarget] ∧
    (Unstage c stageTarget st).2.os = (c.FuseUnmount stageTarget st.os).2 := by
  simp [Unstage, callOut, hclean]

/-- The witness of C6: the cleanup of `/stage` fails, and the directory is
still there. -/
theorem Unstage_cleanup_failure_witness :
    (busyCollaborators.FuseUnmount "/stage".toList osWithStageDir).1
      = some (.collaborator 32) ∧
    ((Unstage busyCollaborators "/stage".toList ⟨osWithStageDir, []⟩).1
      = some (.collaborator 32) ∧
    (Unstage busyCollaborators "/stage".toList ⟨osWithStageDir, []⟩).2.trace
      = [] ++ [Call.FuseUnmount "/stage".toList] ∧
    (Unstage busyCollaborators "/stage".toList ⟨osWithStageDir, []⟩).2.os
      = (busyCollaborators.FuseUnmount "/stage".toList osWithStageDir).2) :=
  ⟨rfl, Unstage_cleanup_failure busyCollaborators "/stage".toList ⟨osWithStageDir, []⟩
    (.collaborator 32) rfl⟩

/-- After a successful cleanup, `Unstage` is the removal of `stageTarget`
with "does not exist" read as success. -/
theorem Unstage_eq_of_cleanup (c : Collaborators) (stageTarget : GoString) (st : State)
    (hclean : (c.FuseUnmount stageTarget st.os).1 = none) :
    Unstage c stageTarget st =
      (match (Remove stageTarget ⟨(c.FuseUnmount stageTarget st.os).2,
                st.trace ++ [Call.FuseUnmount stageTarget]⟩).1 with
        | none => none
        | some err => if IsNotExist err then none else some err,
       (Remove stageTarget ⟨(c.FuseUnmount stageTarget st.os).2,
          st.trace ++ [Call.FuseUnmount stageTarget]⟩).2) := by
  simp only [Unstage, callOut, hclean]
  generalize Remove stageTarget _ = r
  obtain ⟨_ | err, st2⟩ := r
  · rfl
  · cases h : IsNotExist err <;> simp [h]

/-- When the removal succeeds, or fails with an error for which
`os.IsNotExist` holds, `stat` then answers that the path does not exist, and
no fault is raised for the path. -/
theorem Remove_leaves_absent (name : GoString) (st : State)
    (h : (match (Remove name st).1 with
          | none => (none : Option GoError)
          | some err => if IsNotExist err then none else some err) = none) :
    (Remove name st).2.os.stat name = .error ENOENT ∧
    (Remove name st).2.os.removeFault name = none := by
  rw [Remove_removeFault]
  cases hr : (Remove name st).1 with
  | none => exact Remove_ok name st hr
  | some err =>
    rw [hr] at h
    have hne : IsNotExist err = true := by
      cases hi : IsNotExist err
      · simp [hi] at h
      · rfl
    obtain ⟨hs, hos, hf⟩ := Remove_notExist name st err hr hne
    rw [hos]
    exact ⟨hs, hf⟩

/-- C7, refuted as stated: `/root/.passwd-s3fs/sub` does not exist, because
`/root/.passwd-s3fs` is a regular file, and nothing is mounted; the removal
fails with `ENOTDIR`, for which `os.IsNotExist` does not hold, and `Unstage`
returns that error. -/
theorem Unstage_below_file_fails :
    (osWithPwFile []).node "/root/.passwd-s3fs".toList = .file [] ∧
    (osWithPwFile []).node "/root/.passwd-s3fs/sub".toList = .absent ∧
    (idleCollaborators.FuseUnmount "/root/.passwd-s3fs/sub".toList (osWithPwFile [])).1 = none ∧
    (Unstage idleCollaborators "/root/.passwd-s3fs/sub".toList ⟨osWithPwFile [], []⟩).1
      = some (.pathError "remove" "/root/.passwd-s3fs/sub".toList ENOTDIR) ∧
    IsNotExist (.pathError "remove" "/root/.passwd-s3fs/sub".toList ENOTDIR) = false := by
  decide

/-- C7, amended: when the cleanup of the mount point succeeds, `Unstage`
removes `stageTarget` and judges the result of the removal: success stays
success, a failure for which `os.IsNotExist` holds becomes success, and every
other failure is returned as it is.  So an empty directory at a path that
ends in an ordinary name is removed with success when no fault is raised; for
a path that cannot be resolved, `Unstage` succeeds when the error of the
resolution is `ENOENT` and returns the error else (`ENOTDIR` below a regular
file); after a successful `Unstage` the path does not exist; and a second
`Unstage`, whose cleanup succeeds and leaves the file tree, the working
directory and the fault of the path as they are, succeeds as well. -/
theorem Unstage_after_cleanup (c : Collaborators) (stageTarget : GoString) (st : State)
    (hclean : (c.FuseUnmount stageTarget st.os).1 = none) :
    Unstage c stageTarget st =
      (match (Remove stageTarget ⟨(c.FuseUnmount stageTarget st.os).2,
                st.trace ++ [Call.FuseUnmount stageTarget]⟩).1 with
        | none => none
        | some err => if IsNotExist err then none else some err,
       (Remove stageTarget ⟨(c.FuseUnmount stageTarget st.os).2,
          st.trace ++ [Call.FuseUnmount stageTarget]⟩).2) ∧
    (∀ n, (c.FuseUnmount stageTarget st.os).2.node stageTarget = .dir true →
      lastOf (components stageTarget) = .norm n →
      (c.FuseUnmount stageTarget st.os).2.removeFault stageTarget = none →
      (Unstage c stageTarget st).1 = none ∧
      (Unstage c stageTarget st).2.os.stat stageTarget = .error ENOENT) ∧
    (∀ e, (c.FuseUnmount stageTarget st.os).2.stat stageTarget = .error e →
      (c.FuseUnmount stageTarget st.os).2.removeFault stageTarget = none →
      (Unstage c stageTarget st).1 =
        if e = ENOENT then none else some (.pathError "remove" stageTarget e)) ∧
    ((Unstage c stageTarget st).1 = none →
      (Unstage c stageTarget st).2.os.stat stageTarget = .error ENOENT) ∧
    ((Unstage c stageTarget st).1 = none →
      (c.FuseUnmount stageTarget (Unstage c stageTarget st).2.os).1 = none →
      (c.FuseUnmount stageTarget (Unstage c stageTarget st).2.os).2.root =
        (Unstage c stageTarget st).2.os.root →
      (c.FuseUnmount stageTarget (Unstage c stageTarget st).2.os).2.cwd =
        (Unstage c stageTarget st).2.os.cwd →
      (c.FuseUnmount stageTarget (Unstage c stageTarget st).2.os).2.removeFault stageTarget =
        (Unstage c stageTarget st).2.os.removeFault stageTarget →
      (Unstage c stageTarget (Unstage c stageTarget st).2).1 = none) := by
  have heq := Unstage_eq_of_cleanup c stageTarget st hclean
  have hpost : (Unstage c stageTarget st).1 = none →
      (Unstage c stageTarget st).2.os.stat stageTarget = .error ENOENT ∧
      (Unstage c stageTarget st).2.os.removeFault stageTarget = none := by
    intro h
    rw [heq] at h ⊢
    exact Remove_leaves_absent _ _ h
  have herr : ∀ (st1 : State) (e : Nat),
      (c.FuseUnmount stageTarget st1.os).1 = none →
      (c.FuseUnmount stageTarget st1.os).2.stat stageTarget = .error e →
      (c.FuseUnmount stageTarget st1.os).2.removeFault stageTarget = none →
      (Unstage c stageTarget st1).1 =
        if e = ENOENT then none else some (.pathError "remove" stageTarget e) := by
    intro st1 e hc hs hf
    rw [Unstage_eq_of_cleanup c stageTarget st1 hc,
      Remove_of_stat_error stageTarget ⟨_, _⟩ e hs hf]
    simp only [IsNotExist, decide_eq_true_eq]
  refine ⟨heq, ?_, fun e => herr st e hclean, fun h => (hpost h).1, ?_⟩
  · intro n hdir hlast hfault
    have hrm := Remove_empty_dir stageTarget
      ⟨(c.FuseUnmount stageTarget st.os).2, st.trace ++ [Call.FuseUnmount stageTarget]⟩
      n hdir hlast hfault
    have hnone : (Unstage c stageTarget st).1 = none := by
      rw [heq]
      simp only [hrm]
    exact ⟨hnone, (hpost hnone).1⟩
  · intro h hclean2 hroot hcwd hfault
    obtain ⟨hs, hf⟩ := hpost h
    have h2 := herr (Unstage c stageTarget st).2 ENOENT hclean2
      ((stat_congr _ _ stageTarget hroot hcwd).trans hs) (hfault.trans hf)
    simpa using h2

/-- The witness of C7: nothing is mounted at the empty directory `/stage`;
`Unstage` removes it, and a second `Unstage` succeeds too. -/
theorem Unstage_after_cleanup_witness :
    (idleCollaborators.FuseUnmount "/stage".toList osWithStageDir).1 = none ∧
    osWithStageDir.node "/stage".toList = .dir true ∧
    (Unstage idleCollaborators "/stage".toList ⟨osWithStageDir, []⟩).1 = none ∧
    (Unstage idleCollaborators "/stage".toList ⟨osWithStageDir, []⟩).2.os.stat
      "/stage".toList = .error ENOENT ∧
    (Unstage idleCollaborators "/stage".toList
      (Unstage idleCollaborators "/stage".toList ⟨osWithStageDir, []⟩).2).1 = none :=
  have h := Unstage_after_cleanup idleCollaborators "/stage".toList ⟨osWithStageDir, []⟩ rfl
  have h1 := h.2.1 "stage".toList (by decide) (by decide) rfl
  ⟨rfl, by decide, h1.1, h1.2, h.2.2.2.2 h1.1 rfl rfl rfl rfl⟩

/-! ## `Mount` -/

/-- C9: `Mount` makes one call, the mount of `source` at `target` with an
empty file-system type and the options `["bind"]`, and returns the result of
that call and the operating system it leaves. -/
theorem Mount_is_one_bind_mount (c : Collaborators) (source target : GoString) (st : State) :
    (Mount c source target st).1 = (c.Mount source target [] ["bind".toList] st.os).1 ∧
    (Mount c source target st).2.trace =
      st.trace ++ [Call.Mount source target [] ["bind".toList]] ∧
    (Mount c source target st).2.os = (c.Mount source target [] ["bind".toList] st.os).2 := by
  simp only [Mount, callOut]
  generalize c.Mount source target [] ["bind".toList] st.os = r
  obtain ⟨_ | err, os1⟩ := r <;> exact ⟨rfl, rfl, rfl⟩

/-! ## Placeholders -/

/-- The loop of `os.Expand` at the end of the string. -/
theorem expandLoop_nil (mapping : GoString → GoString) (fuel : Nat) (buf : Option GoString)
    (lit : GoString) : expandLoop mapping fuel buf lit [] = buf.getD [] ++ lit := by
  cases fuel <;> rfl

/-- The scan for the closing brace stops at the first one. -/
theorem scanToBrace_append (n : GoString) (i : Nat) (rest : GoString) (h : '}' ∉ n) :
    scanToBrace (n ++ '}' :: rest) i = some (i + n.length) := by
  induction n generalizing i with
  | nil => simp [scanToBrace]
  | cons c cs ih =>
    have hc : c ≠ '}' := fun hc => h (by simp [hc])
    have hcs : '}' ∉ cs := fun hcs => h (by simp [hcs])
    simp [scanToBrace, hc, ih (i + 1) hcs]
    omega

/-- The name of a braced placeholder is the text between the braces. -/
theorem getShellName_braced (n rest : GoString) (hne : n ≠ []) (h : '}' ∉ n) :
    getShellName '{' (n ++ '}' :: rest) = (n, n.length + 2) := by
  unfold getShellName
  simp only [if_true]
  split
  · rename_i hsp
    match n, hne, h with
    | [x], _, _ => simp
    | x :: y :: n', _, h =>
      have hy : y ≠ '}' := fun hy => h (by simp [hy])
      simp [hy] at hsp
  · rw [scanToBrace_append n 1 rest h]
    have hlen : 0 < n.length := List.length_pos.mpr hne
    have h1 : 1 + n.length ≠ 1 := by omega
    simp [h1]
    omega

/-- What `os.Expand` makes of the string that is one braced placeholder: the
value of the mapping at its name. -/
theorem Expand_braced (mapping : GoString → GoString) (n : GoString) (hne : n ≠ [])
    (h : '}' ∉ n) : Expand ('$' :: '{' :: (n ++ ['}'])) mapping = mapping n := by
  have hdrop : List.drop (n.length + 2) ('{' :: (n ++ ['}'])) = [] := by
    apply List.drop_eq_nil_of_le
    simp
  simp [Expand, expandLoop, getShellName_braced n [] hne h, hne, hdrop, expandLoop_nil]

/-- A dollar sign before a character that begins no name: no name, and
nothing consumed. -/
theorem getShellName_none (s0 : Char) (tl : GoString) (h1 : s0 ≠ '{')
    (h2 : isShellSpecialVar s0 = false) (h3 : isAlphaNum s0 = false) :
    getShellName s0 tl = ([], 0) := by
  simp [getShellName, h1, h2, h3, scanAlphaNum]

/-- The loop of `os.Expand` copies a string in which no dollar sign begins a
placeholder, whatever the fuel. -/
theorem expandLoop_noPlaceholder (mapping : GoString → GoString) (fuel : Nat) :
    ∀ (buf : Option GoString) (lit rest : GoString), rest.length ≤ fuel →
      noPlaceholder rest = true →
      expandLoop mapping fuel buf lit rest = buf.getD [] ++ lit ++ rest := by
  induction fuel with
  | zero =>
    intro buf lit rest hlen _
    have : rest = [] := List.length_eq_zero.mp (by omega)
    subst this
    simp [expandLoop]
  | succ fuel ih =>
    intro buf lit rest hlen hno
    match rest, hlen, hno with
    | [], _, _ => simp [expandLoop]
    | [c], _, _ =>
      simp [expandLoop, expandLoop_nil]
    | c :: s0 :: tl, hlen, hno =>
      simp only [noPlaceholder, Bool.and_eq_true, Bool.not_eq_true', Bool.and_eq_false_iff,
        Bool.or_eq_false_iff, decide_eq_false_iff_not, decide_eq_true_eq] at hno
      obtain ⟨hc, htl⟩ := hno
      have hlen2 : (s0 :: tl).length ≤ fuel := by simp at hlen ⊢; omega
      simp only [expandLoop]
      by_cases hd : c = '$'
      · rcases hc with hc | ⟨⟨h1, h2⟩, h3⟩
        · exact absurd hd hc
        · rw [if_pos hd, getShellName_none s0 tl h1 h2 h3]
          simp only [List.drop_zero]
          rw [ih _ _ _ hlen2 htl]
          simp
      · rw [if_neg hd, ih _ _ _ hlen2 htl]
        simp

/-- The expansion of a string in which no dollar sign begins a placeholder is
the string. -/
theorem Expand_noPlaceholder (mapping : GoString → GoString) (s : GoString)
    (h : noPlaceholder s = true) : Expand s mapping = s := by
  simp [Expand, expandLoop_noPlaceholder mapping s.length none [] s (le_refl _) h]

/-- The fuel of `Expand` is enough: with any fuel that is at least the length of
the rest of the string, the loop of `os.Expand` returns the same string. -/
theorem expandLoop_fuel (mapping : GoString → GoString) (fuel1 : Nat) :
    ∀ (fuel2 : Nat) (buf : Option GoString) (lit rest : GoString), rest.length ≤ fuel1 →
      rest.length ≤ fuel2 →
      expandLoop mapping fuel1 buf lit rest = expandLoop mapping fuel2 buf lit rest := by
  induction fuel1 with
  | zero =>
    intro fuel2 buf lit rest h1 _
    have : rest = [] := List.length_eq_zero.mp (by omega)
    subst this
    simp [expandLoop_nil]
  | succ fuel1 ih =>
    intro fuel2 buf lit rest h1 h2
    match rest, fuel2, h1, h2 with
    | [], _, _, _ => simp [expandLoop_nil]
    | [c], fuel2 + 1, _, _ => simp [expandLoop, expandLoop_nil]
    | c :: s0 :: tl, fuel2 + 1, h1, h2 =>
      simp only [List.length_cons] at h1 h2
      simp only [expandLoop]
      split
      · apply ih
        · simp only [List.length_drop, List.length_cons]; omega
        · simp only [List.length_drop, List.length_cons]; omega
      · apply ih
        · simp only [List.length_cons]; omega
        · simp only [List.length_cons]; omega

/-! ## Fields -/

/-- The loop of `strings.FieldsFunc` reads a run of characters that are not
separators into the field it is reading. -/
theorem fieldsLoop_run (f : Char → Bool) (d : GoString) (hd : ∀ c ∈ d, f c = false) :
    ∀ (cur rest : GoString) (spans : List GoString),
      fieldsLoop f (d ++ rest) (some cur) spans = fieldsLoop f rest (some (cur ++ d)) spans := by
  induction d with
  | nil => intro cur rest spans; simp
  | cons c cs ih =>
    intro cur rest spans
    have hc : f c = false := hd c (by simp)
    have hcs : ∀ x ∈ cs, f x = false := fun x hx => hd x (by simp [hx])
    simp [fieldsLoop, hc, ih hcs]

/-- The loop of `strings.FieldsFunc` begins a field at a run of characters
that are not separators. -/
theorem fieldsLoop_run_start (f : Char → Bool) (d : GoString) (hne : d ≠ [])
    (hd : ∀ c ∈ d, f c = false) (rest : GoString) (spans : List GoString) :
    fieldsLoop f (d ++ rest) none spans = fieldsLoop f rest (some d) spans := by
  match d, hne, hd with
  | c :: cs, _, hd =>
    have hc : f c = false := hd c (by simp)
    have hcs : ∀ x ∈ cs, f x = false := fun x hx => hd x (by simp [hx])
    simp [fieldsLoop, hc, fieldsLoop_run f cs hcs]

/-- A non-empty string without white space is one field. -/
theorem Fields_single (d : GoString) (hne : d ≠ []) (hd : ∀ c ∈ d, IsSpace c = false) :
    Fields d = [d] := by
  have h := fieldsLoop_run_start IsSpace d hne hd [] []
  simp only [List.append_nil] at h
  simp [Fields, FieldsFunc, h, fieldsLoop]

/-! ## `parseExtraOptions` -/

/-- C2, refuted as stated: the extra options `${unknown}` give the token
`unknown`, not the token `${unknown}`. -/
theorem parseExtraOptions_unknown_not_kept :
    parseExtraOptions idleCollaborators.getCacheDir
        (withExtraOptions (newS3fsMounter ⟨"b".toList, [], [], []⟩ ⟨[], [], [], []⟩)
          "$\x7bunknown\x7d".toList) = ["unknown".toList] ∧
    ["unknown".toList] ≠ ["$\x7bunknown\x7d".toList] := by
  decide

/-- C2, amended: for a placeholder name `n` other than `cacheDir` that is not
empty and holds neither a closing brace nor white space, the extra options
`${n}` give the single token `n`: the name without the dollar sign and the
braces. -/
theorem parseExtraOptions_unknown_placeholder (getCacheDir : GoString → GoString)
    (s3fs : s3fsMounter) (n : GoString) (hne : n ≠ []) (hbrace : '}' ∉ n)
    (hspace : ∀ c ∈ n, IsSpace c = false) (hname : n ≠ "cacheDir".toList) :
    parseExtraOptions getCacheDir (withExtraOptions s3fs ('$' :: '{' :: (n ++ ['}']))) = [n] := by
  simp only [parseExtraOptions, withExtraOptions]
  rw [Expand_braced _ n hne hbrace]
  simp only [extraOptionsMapping, if_neg hname]
  exact Fields_single n hne hspace

/-- The witness of C2 as amended: the placeholder `${unknown}`. -/
theorem parseExtraOptions_unknown_placeholder_witness :
    parseExtraOptions idleCollaborators.getCacheDir
        (withExtraOptions (newS3fsMounter ⟨"b".toList, [], [], []⟩ ⟨[], [], [], []⟩)
          ('$' :: '{' :: ("unknown".toList ++ ['}']))) = ["unknown".toList] :=
  parseExtraOptions_unknown_placeholder idleCollaborators.getCacheDir
    (newS3fsMounter ⟨"b".toList, [], [], []⟩ ⟨[], [], [], []⟩) "unknown".toList
    (by decide) (by decide) (by decide) (by decide)

/-- C8: when the cache directory of the bucket is not empty and holds no white
space, the extra options `${cacheDir} -o foo` give the tokens: the cache
directory, `-o`, `foo`; and empty extra options give no token. -/
theorem parseExtraOptions_cacheDir (getCacheDir : GoString → GoString) (s3fs : s3fsMounter)
    (hne : getCacheDir s3fs.meta.BucketName ≠ [])
    (hspace : ∀ c ∈ getCacheDir s3fs.meta.BucketName, IsSpace c = false) :
    parseExtraOptions getCacheDir (withExtraOptions s3fs "$\x7bcacheDir\x7d -o foo".toList)
      = [getCacheDir s3fs.meta.BucketName, "-o".toList, "foo".toList] ∧
    parseExtraOptions getCacheDir (withExtraOptions s3fs []) = [] := by
  constructor
  · have hexp : Expand "$\x7bcacheDir\x7d -o foo".toList
        (extraOptionsMapping getCacheDir
          (withExtraOptions s3fs "$\x7bcacheDir\x7d -o foo".toList))
        = getCacheDir s3fs.meta.BucketName ++ " -o foo".toList := by
      rfl
    simp only [parseExtraOptions, withExtraOptions] at hexp ⊢
    rw [hexp]
    simp only [Fields, FieldsFunc]
    rw [fieldsLoop_run_start IsSpace _ hne hspace]
    rfl
  · rfl

/-- The witness of C8: the cache directory `/var/cache/b` of the bucket `b`. -/
theorem parseExtraOptions_cacheDir_witness :
    parseExtraOptions idleCollaborators.getCacheDir
        (withExtraOptions (newS3fsMounter ⟨"b".toList, [], [], []⟩ ⟨[], [], [], []⟩)
          "$\x7bcacheDir\x7d -o foo".toList)
      = ["/var/cache/b".toList, "-o".toList, "foo".toList] ∧
    parseExtraOptions idleCollaborators.getCacheDir
        (withExtraOptions (newS3fsMounter ⟨"b".toList, [], [], []⟩ ⟨[], [], [], []⟩) []) = [] :=
  parseExtraOptions_cacheDir idleCollaborators.getCacheDir
    (newS3fsMounter ⟨"b".toList, [], [], []⟩ ⟨[], [], [], []⟩) (by decide) (by decide)

/-- C10, refuted as stated: the extra options `-o passwd=a$b` and `$cacheDir`
hold no `${`, yet the dollar sign begins a placeholder in both: the tokens are
`-o`, `passwd=ab` and the cache directory, not the fields of the raw string. -/
theorem parseExtraOptions_bare_dollar_expanded :
    ¬ "$\x7b".toList <:+: "-o passwd=a$b".toList ∧
    parseExtraOptions idleCollaborators.getCacheDir
        (withExtraOptions (newS3fsMounter ⟨"b".toList, [], [], []⟩ ⟨[], [], [], []⟩)
          "-o passwd=a$b".toList) = ["-o".toList, "passwd=ab".toList] ∧
    Fields "-o passwd=a$b".toList = ["-o".toList, "passwd=a$b".toList] ∧
    ¬ "$\x7b".toList <:+: "$cacheDir".toList ∧
    parseExtraOptions idleCollaborators.getCacheDir
        (withExtraOptions (newS3fsMounter ⟨"b".toList, [], [], []⟩ ⟨[], [], [], []⟩)
          "$cacheDir".toList) = ["/var/cache/b".toList] ∧
    Fields "$cacheDir".toList = ["$cacheDir".toList] := by
  decide

/-- C10, amended: when no dollar sign of the extra options begins a
placeholder (none is followed by an opening brace, by one of `*#$@!?-` or a
digit, or by a letter or an underscore), `os.Expand` substitutes nothing and
the tokens are the fields of the raw string. -/
theorem parseExtraOptions_noPlaceholder (getCacheDir : GoString → GoString)
    (s3fs : s3fsMounter) (raw : GoString) (h : noPlaceholder raw = true) :
    Expand raw (extraOptionsMapping getCacheDir (withExtraOptions s3fs raw)) = raw ∧
    parseExtraOptions getCacheDir (withExtraOptions s3fs raw) = Fields raw := by
  have hexp := Expand_noPlaceholder
    (extraOptionsMapping getCacheDir (withExtraOptions s3fs raw)) raw h
  refine ⟨hexp, ?_⟩
  simp only [parseExtraOptions]
  rw [show (withExtraOptions s3fs raw).meta.ExtraOptions = raw from rfl, hexp]

/-- The witness of C10 as amended: extra options with a dollar sign that
begins no placeholder. -/
theorem parseExtraOptions_noPlaceholder_witness :
    parseExtraOptions idleCollaborators.getCacheDir
        (withExtraOptions (newS3fsMounter ⟨"b".toList, [], [], []⟩ ⟨[], [], [], []⟩)
          "-o cost=5$ -o x=$.y".toList)
      = Fields "-o cost=5$ -o x=$.y".toList :=
  (parseExtraOptions_noPlaceholder idleCollaborators.getCacheDir
    (newS3fsMounter ⟨"b".toList, [], [], []⟩ ⟨[], [], [], []⟩)
    "-o cost=5$ -o x=$.y".toList (by decide)).2

/-! ## The source spec -/

/-- A string without two neighbouring separators does not hold `//`. -/
theorem SepFree.not_infix {s : GoString} (h : SepFree s) : ¬ "//".toList <:+: s := by
  intro hin
  have h2 : List.Chain' (fun a b => a ≠ '/' ∨ b ≠ '/') ['/', '/'] := List.Chain'.infix h hin
  simp at h2

/-- A string of characters that are not separators has no two neighbouring
separators. -/
theorem SepFree.of_no_sep {s : GoString} (h : ∀ x ∈ s, x ≠ '/') : SepFree s := by
  induction s with
  | nil => exact List.chain'_nil
  | cons a t ih =>
    refine List.chain'_cons'.mpr ⟨fun y _ => Or.inl (h a (by simp)), ?_⟩
    exact ih (fun x hx => h x (by simp [hx]))

/-- Where the backtracking of a `..` element stops: not below `dotdot`, and
at `dotdot` or at a separator. -/
theorem backtrack_spec (buf : List Char) (dotdot : Nat) :
    ∀ w, dotdot ≤ w →
      dotdot ≤ backtrack buf dotdot w ∧ backtrack buf dotdot w ≤ w ∧
      (backtrack buf dotdot w = dotdot ∨ buf.getD (backtrack buf dotdot w) '/' = '/') := by
  intro w
  induction w with
  | zero =>
    intro h
    have : dotdot = 0 := by omega
    simp [backtrack, this]
  | succ w ih =>
    intro h
    unfold backtrack
    split
    · rename_i hc
      simp only [Bool.and_eq_true, decide_eq_true_eq, bne_iff_ne, ne_eq] at hc
      obtain ⟨h1, h2, h3⟩ := ih (by omega)
      exact ⟨h1, by omega, h3⟩
    · rename_i hc
      simp only [Bool.and_eq_true, decide_eq_true_eq, bne_iff_ne, ne_eq, not_and, not_not] at hc
      refine ⟨h, le_refl _, ?_⟩
      by_cases hw : dotdot < w + 1
      · exact Or.inr (hc hw)
      · left; omega

/-- Backtracking over a `..` element keeps the invariant. -/
theorem CleanInv.backtrack {rooted : Bool} {out : GoString} {dotdot : Nat}
    (h : CleanInv rooted out dotdot) (hlt : dotdot < out.length) :
    CleanInv rooted (out.take (backtrack out dotdot (out.length - 1))) dotdot := by
  obtain ⟨h1, h2, h3⟩ := backtrack_spec out dotdot (out.length - 1) (by omega)
  generalize S3fs.backtrack out dotdot (out.length - 1) = r at h1 h2 h3
  have hr : r < out.length := by omega
  have htake : (out.take r).take dotdot = out.take dotdot := by
    rw [List.take_take, min_eq_left h1]
  refine ⟨h.free.take r, ?_, ?_, ?_, ?_, ?_⟩
  · intro hl
    rcases h3 with h3 | h3
    · subst h3
      exact h.dd_last hl
    · exfalso
      have hget : out[r]? = some '/' := by
        rw [List.getD_eq_getElem?_getD, List.getElem?_eq_getElem hr] at h3
        rw [List.getElem?_eq_getElem hr]
        simpa using h3
      have hsplit : SepFree (out.take r ++ out.drop r) := by
        rw [List.take_append_drop]; exact h.free
      have := (List.chain'_append.mp hsplit).2.2 '/' (by simp [hl]) '/'
        (by simp [List.head?_drop, hget])
      simp at this
  · intro hroot
    obtain ⟨hh, hd⟩ := h.root hroot
    refine ⟨?_, hd⟩
    rw [List.head?_take, if_neg (by omega)]
    exact hh
  · intro hroot
    rw [List.head?_take]
    split
    · simp
    · exact h.noroot hroot
  · rw [List.length_take]
    omega
  · rw [htake]
    exact h.dd_last

/-- A buffer that keeps the invariant and is not the root does not end in a
separator. -/
theorem CleanInv.last_ne {rooted : Bool} {out : GoString} {dotdot : Nat}
    (h : CleanInv rooted out dotdot) (hlen : rooted = false ∨ out.length ≠ 1) :
    out.getLast? ≠ some '/' := by
  intro hl
  have hout := h.last hl
  rcases hlen with hr | hr
  · exact h.noroot hr (by simp [hout])
  · exact hr (by simp [hout])

/-- Appending a `..` element to the buffer of a path that is not rooted keeps
the invariant. -/
theorem CleanInv.dotdot {out : GoString} {dotdot : Nat} (h : CleanInv false out dotdot) :
    CleanInv false ((if out.length > 0 then out ++ ['/'] else out) ++ ['.', '.'])
      ((if out.length > 0 then out ++ ['/'] else out) ++ ['.', '.']).length := by
  have hlast := h.last_ne (Or.inl rfl)
  have hhead := h.noroot rfl
  have hfree : SepFree ((if out.length > 0 then out ++ ['/'] else out) ++ ['.', '.']) := by
    unfold SepFree
    split
    · rw [List.append_assoc]
      refine List.chain'_append.mpr ⟨h.free, by simp, ?_⟩
      intro x hx y hy
      simp only [List.singleton_append, List.head?_cons, Option.mem_def, Option.some.injEq] at hy
      subst hy
      left
      intro hxs
      subst hxs
      exact hlast hx
    · refine List.chain'_append.mpr ⟨h.free, by simp, ?_⟩
      intro x _ y hy
      simp only [List.head?_cons, Option.mem_def, Option.some.injEq] at hy
      subst hy
      right
      decide
  refine ⟨hfree, ?_, ?_, ?_, le_refl _, ?_⟩
  · intro hl
    simp at hl
  · intro hr
    simp at hr
  · intro _
    cases out with
    | nil => simp
    | cons a t => simpa using hhead
  · intro hl
    rw [List.take_length] at hl
    simp at hl

/-- Appending a path element, after a separator when one is needed, keeps the
invariant. -/
theorem CleanInv.element {rooted : Bool} {out : GoString} {dotdot : Nat}
    (h : CleanInv rooted out dotdot) (c : Char) (tl : GoString) (hc : c ≠ '/') :
    CleanInv rooted
      ((if (rooted && out.length != 1) || (!rooted && out.length != 0) then out ++ ['/']
        else out) ++ (c :: tl).takeWhile (fun x => x != '/')) dotdot := by
  have hck : (c != '/') = true := by simpa using hc
  obtain ⟨e, he⟩ : ∃ e, (c :: tl).takeWhile (fun x => x != '/') = c :: e :=
    ⟨_, List.takeWhile_cons_of_pos hck⟩
  have hmem : ∀ x ∈ c :: e, x ≠ '/' := by
    intro x hx
    rw [← he] at hx
    simpa using List.mem_takeWhile_imp hx
  have hefree : SepFree (c :: e) := SepFree.of_no_sep hmem
  have helast : (c :: e).getLast? ≠ some '/' := by
    intro hl
    exact hmem '/' (List.mem_of_getLast?_eq_some hl) rfl
  rw [he]
  generalize hout1 : (if (rooted && out.length != 1) || (!rooted && out.length != 0) then
    out ++ ['/'] else out) = out1
  have hfree1 : SepFree out1 := by
    rw [← hout1]
    split
    · rename_i hcond
      refine List.chain'_append.mpr ⟨h.free, by simp, ?_⟩
      intro x hx y hy
      left
      intro hxs
      subst hxs
      refine h.last_ne ?_ hx
      cases rooted <;> simp_all
    · exact h.free
  have hhead1 : out1.head? = out.head? ∨ (out = [] ∧ out1 = []) := by
    rw [← hout1]
    split
    · cases out with
      | nil =>
        rename_i hcond
        cases rooted
        · simp at hcond
        · have := (h.root rfl).1
          simp at this
      | cons a t => left; simp
    · cases out with
      | nil => right; exact ⟨rfl, rfl⟩
      | cons a t => left; rfl
  have hpre : out <+: out1 := by
    rw [← hout1]
    split
    · exact List.prefix_append _ _
    · exact List.prefix_refl _
  have hlen1 : out.length ≤ out1.length := hpre.length_le
  have htake1 : (out1 ++ c :: e).take dotdot = out.take dotdot := by
    obtain ⟨t, ht⟩ := hpre
    rw [← ht, List.append_assoc, List.take_append_of_le_length h.dd_le]
  refine ⟨?_, ?_, ?_, ?_, ?_, ?_⟩
  · refine List.chain'_append.mpr ⟨hfree1, hefree, ?_⟩
    intro x _ y hy
    simp only [List.head?_cons, Option.mem_def, Option.some.injEq] at hy
    subst hy
    exact Or.inr hc
  · intro hl
    rw [List.getLast?_append_of_ne_nil _ (by simp)] at hl
    exact absurd hl helast
  · intro hr
    obtain ⟨hh, hd⟩ := h.root hr
    refine ⟨?_, hd⟩
    rcases hhead1 with h1 | ⟨h1, _⟩
    · rw [List.head?_append, h1, hh]; rfl
    · rw [h1] at hh; simp at hh
  · intro hr
    rcases hhead1 with h1 | ⟨_, h1⟩
    · cases hout : out with
      | nil =>
        rw [hout] at h1
        cases hout1' : out1 with
        | nil => simpa using hc
        | cons a t => rw [hout1'] at h1; simp at h1
      | cons a t =>
        have := h.noroot hr
        rw [List.head?_append, h1]
        rw [hout] at this ⊢
        simpa using this
    · rw [h1]; simpa using hc
  · rw [List.length_append]
    have := h.dd_le
    omega
  · rw [htake1]
    exact h.dd_last

/-- The loop of `path.Clean` keeps the invariant. -/
theorem cleanLoop_inv (rooted : Bool) (fuel : Nat) :
    ∀ (rest out : GoString) (dotdot : Nat), CleanInv rooted out dotdot →
      ∃ dotdot1, CleanInv rooted (cleanLoop rooted fuel rest out dotdot) dotdot1 := by
  induction fuel with
  | zero => intro rest out dotdot h; exact ⟨dotdot, h⟩
  | succ fuel ih =>
    intro rest out dotdot h
    match rest with
    | [] => exact ⟨dotdot, h⟩
    | c :: tl =>
      simp only [cleanLoop]
      split
      · exact ih _ _ _ h
      · split
        · exact ih _ _ _ h
        · split
          · split
            · rename_i hlt
              exact ih _ _ _ (h.backtrack (by simpa using hlt))
            · split
              · rename_i hr
                have hr2 : rooted = false := by simpa using hr
                subst hr2
                exact ih _ _ _ h.dotdot
              · exact ih _ _ _ h
          · rename_i hc _ _
            exact ih _ _ _ (h.element c tl hc)

/-- The fuel of `Clean` is enough: with any fuel that is at least the length of
the rest of the path, the loop of `path.Clean` returns the same buffer. -/
theorem cleanLoop_fuel (rooted : Bool) (fuel1 : Nat) :
    ∀ (fuel2 : Nat) (rest out : GoString) (dotdot : Nat), rest.length ≤ fuel1 →
      rest.length ≤ fuel2 →
      cleanLoop rooted fuel1 rest out dotdot = cleanLoop rooted fuel2 rest out dotdot := by
  induction fuel1 with
  | zero =>
    intro fuel2 rest out dotdot h1 _
    have : rest = [] := List.length_eq_zero.mp (by omega)
    subst this
    cases fuel2 <;> rfl
  | succ fuel1 ih =>
    intro fuel2 rest out dotdot h1 h2
    match rest, fuel2, h1, h2 with
    | [], fuel2, _, _ => cases fuel2 <;> rfl
    | c :: tl, fuel2 + 1, h1, h2 =>
      simp only [List.length_cons] at h1 h2
      have htail : tl.tail.length ≤ tl.length := by simp
      simp only [cleanLoop]
      split
      · exact ih _ _ _ _ (by omega) (by omega)
      · rename_i hsep
        split
        · exact ih _ _ _ _ (by omega) (by omega)
        · split
          · split
            · exact ih _ _ _ _ (by omega) (by omega)
            · split
              · exact ih _ _ _ _ (by omega) (by omega)
              · exact ih _ _ _ _ (by omega) (by omega)
          · have hc : (c != '/') = true := by simpa using hsep
            have hdrop : ((c :: tl).dropWhile (fun x => x != '/')).length ≤ tl.length := by
              rw [List.dropWhile_cons]
              simp only [hc, if_true]
              exact (List.dropWhile_suffix _).length_le
            exact ih _ _ _ _ (by omega) (by omega)

/-- The result of `path.Clean` on a path that is not empty has no two
neighbouring separators, and it begins with a separator exactly when the path
does. -/
theorem Clean_sepFree (path : GoString) (hne : path ≠ []) :
    SepFree (Clean path) ∧
    (path.head? = some '/' → (Clean path).head? = some '/') ∧
    (path.head? ≠ some '/' → (Clean path).head? ≠ some '/') := by
  match path, hne with
  | p0 :: tl, _ =>
    by_cases hp : p0 = '/'
    · subst hp
      have hinit : CleanInv true ['/'] 1 :=
        ⟨List.chain'_singleton _, fun _ => rfl, fun _ => ⟨rfl, rfl⟩, fun h => by simp at h,
          le_refl _, fun _ => rfl⟩
      obtain ⟨d, hinv⟩ := cleanLoop_inv true (tl.length) tl ['/'] 1 hinit
      have hhead := (hinv.root rfl).1
      have hlen : (cleanLoop true tl.length tl ['/'] 1).length ≠ 0 := by
        intro h0
        rw [List.length_eq_zero.mp h0] at hhead
        simp at hhead
      simp only [Clean, decide_True, if_true, List.length_cons, Nat.add_sub_cancel,
        List.tail_cons, if_neg hlen]
      exact ⟨hinv.free, fun _ => hhead, fun h => absurd rfl h⟩
    · have hinit : CleanInv false [] 0 :=
        ⟨List.chain'_nil, fun h => by simp at h, fun h => by simp at h, fun _ => by simp,
          le_refl _, fun h => by simp at h⟩
      obtain ⟨d, hinv⟩ := cleanLoop_inv false ((p0 :: tl).length) (p0 :: tl) [] 0 hinit
      have hdec : decide (p0 = '/') = false := by simpa using hp
      simp only [Clean, hdec, Bool.false_eq_true, if_false]
      split
      · refine ⟨by unfold SepFree; simp, fun h => ?_, fun _ => by decide⟩
        simp at h
        exact absurd h hp
      · refine ⟨hinv.free, fun h => ?_, fun _ => hinv.noroot rfl⟩
        simp at h
        exact absurd h hp

/-- What `path.Join` does with two elements. -/
theorem Join_pair (p f : GoString) :
    Join [p, f] =
      if p = [] then (if f = [] then [] else Clean f) else Clean (p ++ '/' :: f) := by
  cases p with
  | nil =>
    cases f with
    | nil => rfl
    | cons b f => simp [Join, joinBuf]
  | cons a p => simp [Join, joinBuf]

/-- The result of `path.Join` on two elements has no two neighbouring
separators, and it begins with a separator exactly when the first element
that is not empty does. -/
theorem Join_sepFree (p f : GoString) :
    SepFree (Join [p, f]) ∧
    ((p ++ f).head? = some '/' → (Join [p, f]).head? = some '/') ∧
    ((p ++ f).head? ≠ some '/' → (Join [p, f]).head? ≠ some '/') := by
  rw [Join_pair]
  cases p with
  | nil =>
    cases f with
    | nil => simp [SepFree]
    | cons b f => simpa using Clean_sepFree (b :: f) (by simp)
  | cons a p => simpa using Clean_sepFree (a :: p ++ '/' :: f) (by simp)

/-- C3, refuted as stated: for the bucket `b`, the prefix `/p` and the path
`f` the source spec is `b://p/f`, and the text after the bucket name holds
`//`. -/
theorem sourceSpec_rooted_has_double_separator :
    sourceSpec (newS3fsMounter ⟨"b".toList, "/p".toList, "f".toList, []⟩ ⟨[], [], [], []⟩)
      = "b://p/f".toList ∧
    "//".toList <:+:
      (sourceSpec (newS3fsMounter ⟨"b".toList, "/p".toList, "f".toList, []⟩
        ⟨[], [], [], []⟩)).drop "b".toList.length := by
  decide

/-- C3, amended: the source spec is the bucket name, `:/` and the joined path
`path.Join(Prefix, FSPath)`; the joined path never holds `//`; when the first
of `Prefix` and `FSPath` that is not empty does not begin with `/` (also when
both are empty), the text after the bucket name does not hold `//`; and when
it begins with `/`, the text after the bucket name begins with `://`. -/
theorem sourceSpec_separators (s3fs : s3fsMounter) :
    sourceSpec s3fs = s3fs.meta.BucketName ++ ":/".toList ++
      Join [s3fs.meta.Prefix, s3fs.meta.FSPath] ∧
    ¬ "//".toList <:+: Join [s3fs.meta.Prefix, s3fs.meta.FSPath] ∧
    ((s3fs.meta.Prefix ++ s3fs.meta.FSPath).head? ≠ some '/' →
      ¬ "//".toList <:+: (sourceSpec s3fs).drop s3fs.meta.BucketName.length) ∧
    ((s3fs.meta.Prefix ++ s3fs.meta.FSPath).head? = some '/' →
      "://".toList <+: (sourceSpec s3fs).drop s3fs.meta.BucketName.length) := by
  obtain ⟨hfree, hroot, hnoroot⟩ := Join_sepFree s3fs.meta.Prefix s3fs.meta.FSPath
  have hdrop : (sourceSpec s3fs).drop s3fs.meta.BucketName.length =
      ':' :: '/' :: Join [s3fs.meta.Prefix, s3fs.meta.FSPath] := by
    simp [sourceSpec, List.append_assoc]
  refine ⟨rfl, hfree.not_infix, ?_, ?_⟩
  · intro hhead
    rw [hdrop]
    apply SepFree.not_infix
    refine List.chain'_cons.mpr ⟨Or.inl (by decide), ?_⟩
    refine List.chain'_cons'.mpr ⟨?_, hfree⟩
    intro y hy
    right
    intro hys
    subst hys
    exact hnoroot hhead hy
  · intro hhead
    rw [hdrop]
    have h := hroot hhead
    cases hj : Join [s3fs.meta.Prefix, s3fs.meta.FSPath] with
    | nil => rw [hj] at h; simp at h
    | cons a t =>
      rw [hj] at h
      simp only [List.head?_cons, Option.some.injEq] at h
      subst h
      exact ⟨t, rfl⟩

end S3fs
